import Mathlib

/-!
Shallow embedding of the clip-rendering pipeline of clip-creator-pro.

Numeric values (seconds, intensities, pixel ratios) are modelled as exact
rationals `ℚ`; JavaScript numbers are IEEE doubles, but every concrete
input used below is dyadic, so the two semantics agree on them.

Sources embedded here:
  * `src/src/lib/ffmpeg/captionPipeline.ts` — caption normalization,
    drawtext building, overlay merging, `renderCaptionsWithFallback`;
  * `src/unnamed/part_004` (= `part_003`) — `calculateClipTimings`;
  * `src/unnamed/part_000` — peak selection of `analyzeAudio`;
  * `src/src/hooks/useFFmpegWorker.ts` — smart-crop of `buildFilterChain`;
  * `src/src/hooks/useASRTranscription.ts` — `segmentTranscription`.
-/

namespace ClipCreator

/-- Characters removed by `stripInvalidChars` in captionPipeline.ts:
the BOM `﻿` and the control ranges `\u0000-\u0008`, `\u000B`,
`\u000C`, `\u000E-\u001F`, `\u007F`. -/
def bannedChar (c : Char) : Bool :=
  c.val ≤ 0x8 || c.val = 0xB || c.val = 0xC ||
    (0xE ≤ c.val && c.val ≤ 0x1F) || c.val = 0x7F || c.val = 0xFEFF

/-- Whitespace trimmed by `String.prototype.trim` (restricted to the ASCII
whitespace actually reachable after control-character stripping). -/
def wsChar (c : Char) : Bool :=
  c = ' ' || c = '\t' || c = '\n' || c = '\r'

/-- Drop leading and trailing whitespace characters (JS `.trim()`). -/
def trimChars (l : List Char) : List Char :=
  ((l.dropWhile wsChar).reverse.dropWhile wsChar).reverse

/-- JS `.trim()` on strings. -/
def trimString (s : String) : String :=
  ⟨trimChars s.data⟩

/-- `stripInvalidChars` from captionPipeline.ts: remove BOM and control
characters, then trim. -/
def stripInvalidChars (s : String) : String :=
  ⟨trimChars (s.data.filter (fun c => !bannedChar c))⟩

/-- `clamp(n, min, max) = Math.min(max, Math.max(min, n))` from
captionPipeline.ts. -/
def clampQ (n lo hi : ℚ) : ℚ :=
  min hi (max lo n)

/-- `CaptionSegment` of captionPipeline.ts (`end` renamed to `stop`,
a Lean keyword). -/
structure CaptionSegment where
  text : String
  start : ℚ
  stop : ℚ
deriving DecidableEq, Repr

/-- Segment order used by the `.sort((a, b) => a.start - b.start)` calls:
JS `Array.prototype.sort` is a stable sort, modelled throughout by the
stable `List.insertionSort`. -/
def segStartLE (a b : CaptionSegment) : Prop :=
  a.start ≤ b.start

instance : DecidableRel segStartLE :=
  fun a b => inferInstanceAs (Decidable (a.start ≤ b.start))

instance : IsTotal CaptionSegment segStartLE :=
  ⟨fun a b => le_total a.start b.start⟩

instance : IsTrans CaptionSegment segStartLE :=
  ⟨fun _ _ _ hab hbc => le_trans hab hbc⟩

/-- First pass of `normalizeCaptionSegments` (the `for (const seg of
segments)` loop body): strip the text and drop the segment when empty,
clamp both times into `[0, duration]`, drop the segment when shorter
than `0.08`. -/
def safeSegment (duration : ℚ) (seg : CaptionSegment) : Option CaptionSegment :=
  let rawText := stripInvalidChars seg.text
  if rawText = "" then none
  else
    let start := clampQ seg.start 0 duration
    let stop := clampQ seg.stop 0 duration
    if stop - start < 8/100 then none
    else some ⟨rawText, start, stop⟩

/-- Second pass of `normalizeCaptionSegments` (the `for (const seg of
safe)` loop body): against the last kept segment, push the later
segment's start to the earlier one's end on overlap, dropping it when
this leaves less than `0.08`. -/
def dedupStep (fixed : List CaptionSegment) (seg : CaptionSegment) :
    List CaptionSegment :=
  match fixed.getLast? with
  | none => [seg]
  | some last =>
    if seg.start < last.stop then
      if 8/100 ≤ seg.stop - last.stop then
        fixed ++ [{ seg with start := last.stop }]
      else fixed
    else fixed ++ [seg]

/-- `normalizeCaptionSegments` from captionPipeline.ts: strip/drop empty
texts, clamp times into `[0, duration]`, drop segments shorter than
`0.08`, sort by start (stable), then resolve overlaps by advancing the
later segment's start to the previous segment's end, dropping it if that
leaves it shorter than `0.08`. -/
def normalizeCaptionSegments (segments : List CaptionSegment) (duration : ℚ) :
    List CaptionSegment :=
  ((segments.filterMap (safeSegment duration)).insertionSort segStartLE).foldl
    dedupStep []

/-- Smart-crop computation of `buildFilterChain` in useFFmpegWorker.ts:
the `targetRatio = 9/16` centered crop, floored, then forced even
(`cropW - cropW % 2`). Returns `(cropW, cropH)`. -/
def computeCrop (inputWidth inputHeight : ℕ) : ℤ × ℤ :=
  let targetRatio : ℚ := 9 / 16
  let inputRatio : ℚ := (inputWidth : ℚ) / (inputHeight : ℚ)
  let cropW : ℤ :=
    if targetRatio < inputRatio then ⌊(inputHeight : ℚ) * targetRatio⌋
    else (inputWidth : ℤ)
  let cropH : ℤ :=
    if targetRatio < inputRatio then (inputHeight : ℤ)
    else ⌊(inputWidth : ℚ) / targetRatio⌋
  (cropW - cropW % 2, cropH - cropH % 2)

/-- `CutConfig` from useFFmpegWorker.ts / part_004 (caption-text fields
omitted: the timing planner reads only `duration` and `count`, but the
speed/zoom knobs are kept for fidelity). -/
structure CutConfig where
  duration : ℚ
  count : ℕ
  speed : ℚ
  zoomIntensity : ℚ
  enableCaptions : Bool
  customCaption : String
deriving DecidableEq, Repr

/-- An audio highlight `{time, intensity}` as passed to
`calculateClipTimings`. -/
structure Highlight where
  time : ℚ
  intensity : ℚ
deriving DecidableEq, Repr

/-- `ClipTimings` from part_004. -/
structure ClipTimings where
  startTime : ℚ
  endTime : ℚ
  peakIntensity : Option ℚ
deriving DecidableEq, Repr

/-- Descending-intensity order of `sort((a, b) => b.intensity - a.intensity)`
on highlights (stable). -/
def highlightIntensityGE (a b : Highlight) : Prop :=
  b.intensity ≤ a.intensity

instance : DecidableRel highlightIntensityGE :=
  fun a b => inferInstanceAs (Decidable (b.intensity ≤ a.intensity))

instance : IsTotal Highlight highlightIntensityGE :=
  ⟨fun a b => le_total b.intensity a.intensity⟩

instance : IsTrans Highlight highlightIntensityGE :=
  ⟨fun _ _ _ hab hbc => le_trans hbc hab⟩

/-- Ascending-start order of the final
`timings.sort((a, b) => a.startTime - b.startTime)` (stable). -/
def timingStartLE (a b : ClipTimings) : Prop :=
  a.startTime ≤ b.startTime

instance : DecidableRel timingStartLE :=
  fun a b => inferInstanceAs (Decidable (a.startTime ≤ b.startTime))

instance : IsTotal ClipTimings timingStartLE :=
  ⟨fun a b => le_total a.startTime b.startTime⟩

instance : IsTrans ClipTimings timingStartLE :=
  ⟨fun _ _ _ hab hbc => le_trans hab hbc⟩

/-- The overlap test used (twice) inside `calculateClipTimings`:
`(startTime >= t.startTime && startTime < t.endTime) ||
 (endTime > t.startTime && endTime <= t.endTime)`. -/
def hasOverlapCheck (startTime endTime : ℚ) (timings : List ClipTimings) : Bool :=
  timings.any (fun t =>
    (decide (t.startTime ≤ startTime) && decide (startTime < t.endTime)) ||
    (decide (t.startTime < endTime) && decide (endTime ≤ t.endTime)))

/-- One candidate window of the highlight phase of `calculateClipTimings`:
start 3 s before the peak (clamped at 0); if the window runs past the video
end, shift it left to fit. -/
def highlightWindow (videoDuration clipDuration : ℚ) (h : Highlight) : ClipTimings :=
  let startTime := max 0 (h.time - 3)
  let endTime := startTime + clipDuration
  if videoDuration < endTime then
    ⟨max 0 (videoDuration - clipDuration), videoDuration, some h.intensity⟩
  else
    ⟨startTime, endTime, some h.intensity⟩

/-- The `sortedHighlights.forEach` loop of `calculateClipTimings`: accept
each candidate window unless it overlaps an already-accepted one. -/
def acceptHighlights (videoDuration clipDuration : ℚ) (hs : List Highlight) :
    List ClipTimings :=
  hs.foldl (fun timings h =>
    let w := highlightWindow videoDuration clipDuration h
    if hasOverlapCheck w.startTime w.endTime timings then timings
    else timings ++ [w]) []

/-- The linear-fill `while` loop of `calculateClipTimings`, with explicit
fuel: the source loop `while (timings.length < count && currentStart +
clipDuration <= videoDuration)` advances `currentStart` by `interval` each
iteration and pushes the candidate window unless it overlaps.  `none`
means the fuel ran out before the loop condition turned false. -/
def fillLoop (videoDuration clipDuration interval : ℚ) (count : ℕ) :
    ℕ → ℚ → List ClipTimings → Option (List ClipTimings)
  | 0, _, _ => none
  | fuel + 1, currentStart, timings =>
    if timings.length < count ∧ currentStart + clipDuration ≤ videoDuration then
      let timings' :=
        if hasOverlapCheck currentStart (currentStart + clipDuration) timings then
          timings
        else timings ++ [⟨currentStart, currentStart + clipDuration, none⟩]
      fillLoop videoDuration clipDuration interval count fuel
        (currentStart + interval) timings'
    else some timings

/-- `calculateClipTimings` from part_004 (identical in part_003).  The
`fuel` bounds the linear-fill `while` loop, the only loop of the source
that is not structurally bounded; `none` reports that the loop did not
terminate within `fuel` iterations. -/
def calculateClipTimings (fuel : ℕ) (videoDuration : ℚ) (config : CutConfig)
    (audioHighlights : List Highlight) : Option (List ClipTimings) :=
  let clipDuration := config.duration
  let count := config.count
  let timings? : Option (List ClipTimings) :=
    if audioHighlights.isEmpty then
      let interval := (videoDuration - clipDuration) /
        (if 1 < count then (count : ℚ) - 1 else 1)
      some ((List.range count).map (fun (i : ℕ) =>
        ⟨(i : ℚ) * interval, (i : ℚ) * interval + clipDuration, none⟩))
    else
      let sortedHighlights :=
        (audioHighlights.insertionSort highlightIntensityGE).take count
      let timings := acceptHighlights videoDuration clipDuration sortedHighlights
      if timings.length < count then
        let interval := (videoDuration - clipDuration) /
          ((count : ℚ) - (timings.length : ℚ))
        fillLoop videoDuration clipDuration interval count fuel 0 timings
      else some timings
  timings?.map (fun l => l.insertionSort timingStartLE)

/-- One entry of `windowEnergies` in `analyzeAudio` (part_000): the
window-center time and the RMS energy of that window. -/
structure WindowEnergy where
  time : ℚ
  energy : ℚ
deriving DecidableEq, Repr

/-- `AudioPeak` from part_000. -/
structure AudioPeak where
  time : ℚ
  intensity : ℚ
deriving DecidableEq, Repr

/-- Descending-intensity order of `sort((a, b) => b.intensity - a.intensity)`
on audio peaks (stable). -/
def peakIntensityGE (a b : AudioPeak) : Prop :=
  b.intensity ≤ a.intensity

instance : DecidableRel peakIntensityGE :=
  fun a b => inferInstanceAs (Decidable (b.intensity ≤ a.intensity))

instance : IsTotal AudioPeak peakIntensityGE :=
  ⟨fun a b => le_total b.intensity a.intensity⟩

instance : IsTrans AudioPeak peakIntensityGE :=
  ⟨fun _ _ _ hab hbc => le_trans hbc hab⟩

/-- Ascending-time order of the final `filteredPeaks.sort` (stable). -/
def peakTimeLE (a b : AudioPeak) : Prop :=
  a.time ≤ b.time

instance : DecidableRel peakTimeLE :=
  fun a b => inferInstanceAs (Decidable (a.time ≤ b.time))

instance : IsTotal AudioPeak peakTimeLE :=
  ⟨fun a b => le_total a.time b.time⟩

instance : IsTrans AudioPeak peakTimeLE :=
  ⟨fun _ _ _ hab hbc => le_trans hab hbc⟩

/-- Normalization step of `analyzeAudio`: divide each energy by the run
maximum, guarding `maxEnergy > 0` (otherwise intensity 0). -/
def normalizeEnergies (windowEnergies : List WindowEnergy) : List AudioPeak :=
  let maxEnergy := ((windowEnergies.map (·.energy)).max?).getD 0
  windowEnergies.map (fun w =>
    ⟨w.time, if 0 < maxEnergy then w.energy / maxEnergy else 0⟩)

/-- Local-maximum scan of `analyzeAudio`: indices `1 .. n-2` whose
intensity strictly exceeds both neighbours and the `0.3` threshold. -/
def localPeaks (normalized : List AudioPeak) : List AudioPeak :=
  ((normalized.zip ((normalized.drop 1).zip (normalized.drop 2))).filterMap
    (fun pcn =>
      let prev := pcn.1
      let curr := pcn.2.1
      let next := pcn.2.2
      if prev.intensity < curr.intensity ∧ next.intensity < curr.intensity ∧
          3/10 < curr.intensity then
        some ⟨curr.time, curr.intensity⟩
      else none))

/-- Greedy selection loop of `analyzeAudio`: walk candidates in the given
(descending-intensity) order, skip any candidate within `minPeakDistance`
of an already-accepted peak, and break once `numPeaks` are accepted. -/
def greedyPick (minPeakDistance : ℚ) (numPeaks : ℕ) :
    List AudioPeak → List AudioPeak → List AudioPeak
  | [], acc => acc
  | p :: rest, acc =>
    if acc.any (fun q => decide (|q.time - p.time| < minPeakDistance)) then
      greedyPick minPeakDistance numPeaks rest acc
    else
      let acc' := acc ++ [p]
      if numPeaks ≤ acc'.length then acc'
      else greedyPick minPeakDistance numPeaks rest acc'

/-- The peak-selection pipeline of `analyzeAudio` (part_000, the cited
region): normalize window energies, find local maxima above threshold,
sort candidates by descending intensity (stable), greedily filter by
`minPeakDistance` stopping at `numPeaks`, and re-sort by time.  The
upstream RMS windowing (which feeds `windowEnergies`) involves
`Math.sqrt` and is kept abstract: the function is quantified over every
possible window-energy list. -/
def analyzeAudioPeaks (windowEnergies : List WindowEnergy)
    (minPeakDistance : ℚ) (numPeaks : ℕ) : List AudioPeak :=
  let normalized := normalizeEnergies windowEnergies
  let allPeaks := localPeaks normalized
  let sortedPeaks := allPeaks.insertionSort peakIntensityGE
  let filteredPeaks := greedyPick minPeakDistance numPeaks sortedPeaks []
  filteredPeaks.insertionSort peakTimeLE

/-- `WordTimestamp` from useASRTranscription.ts (`end` renamed `stop`). -/
structure WordTimestamp where
  word : String
  start : ℚ
  stop : ℚ
  confidence : ℚ
deriving DecidableEq, Repr

/-- The `/[.!?]$/` test of `segmentTranscription`. -/
def endsWithSentencePunct (w : String) : Bool :=
  match w.data.getLast? with
  | some c => c = '.' || c = '!' || c = '?'
  | none => false

/-- The break decision of `segmentTranscription` for the current word `w`
(`chunkLen` words accumulated including `w`, segment started at
`segmentStart`, `next?` the following word if any): any of max-words,
natural pause (> 0.5 s gap), max duration, sentence punctuation, or last
word. -/
def segBreakCond (maxWords : ℕ) (maxDuration : ℚ) (segmentStart : ℚ)
    (chunkLen : ℕ) (w : WordTimestamp) (next? : Option WordTimestamp) : Bool :=
  (decide (maxWords ≤ chunkLen)) ||
  (match next? with
   | some nw => decide (1/2 < nw.start - w.stop)
   | none => false) ||
  (decide (maxDuration ≤ w.stop - segmentStart)) ||
  endsWithSentencePunct w.word ||
  next?.isNone

/-- The word loop of `segmentTranscription`, with its accumulated state
(`segmentStart`, current word chunk, emitted segments) made explicit. -/
def segLoop (maxWords : ℕ) (maxDuration : ℚ) :
    List WordTimestamp → ℚ → List WordTimestamp → List CaptionSegment →
      List CaptionSegment
  | [], _, _, segments => segments
  | w :: rest, segmentStart, currentSegment, segments =>
    let currentSegment' := currentSegment ++ [w]
    if segBreakCond maxWords maxDuration segmentStart currentSegment'.length w
        rest.head? then
      let text := trimString (String.intercalate " " (currentSegment'.map (·.word)))
      let segments' :=
        if text = "" then segments else segments ++ [⟨text, segmentStart, w.stop⟩]
      let segmentStart' :=
        match rest.head? with
        | some nw => nw.start
        | none => segmentStart
      segLoop maxWords maxDuration rest segmentStart' [] segments'
    else
      segLoop maxWords maxDuration rest segmentStart currentSegment' segments

/-- `segmentTranscription` from useASRTranscription.ts (the source
defaults are `maxWordsPerSegment = 6`, `maxSegmentDuration = 3.0`). -/
def segmentTranscription (words : List WordTimestamp) (maxWords : ℕ)
    (maxDuration : ℚ) : List CaptionSegment :=
  match words with
  | [] => []
  | w :: _ => segLoop maxWords maxDuration words w.start [] []

/-- `CaptionPosition` from captionPipeline.ts. -/
inductive CaptionPosition
  | top
  | center
  | bottom
deriving DecidableEq, Repr

/-- `escapeDrawtextText` from captionPipeline.ts: strip invalid
characters, escape `\\`, `'`, `:`, `%` and newlines, then trim. -/
def escapeDrawtextChar (c : Char) : List Char :=
  if c = '\\' then ['\\', '\\']
  else if c = '\'' then ['\\', '\'']
  else if c = ':' then ['\\', ':']
  else if c = '%' then ['\\', '%']
  else if c = '\n' then ['\\', 'n']
  else [c]

/-- `escapeDrawtextText` from captionPipeline.ts. -/
def escapeDrawtextText (text : String) : String :=
  ⟨trimChars ((stripInvalidChars text).data.flatMap escapeDrawtextChar)⟩

/-- `pickY` from captionPipeline.ts: the vertical-position expression. -/
def pickY (pos : CaptionPosition) : String :=
  match pos with
  | .top => "h*0.12"
  | .center => "h*0.52"
  | .bottom => "h*0.82"

/-- Hexadecimal digit test for `hexNoHash`'s pattern check
(`#` followed by exactly six hex digits). -/
def isHexDigit (c : Char) : Bool :=
  c.isDigit || ('a' ≤ c && c ≤ 'f') || ('A' ≤ c && c ≤ 'F')

/-- `hexNoHash` from captionPipeline.ts: ``trim``, accept only
`#RRGGBB`, return the six hex digits or the fallback. -/
def hexNoHash (hex : String) (fallback : String) : String :=
  match trimChars hex.data with
  | '#' :: rest =>
    if rest.length = 6 && rest.all isHexDigit then ⟨rest⟩ else fallback
  | _ => fallback

/-- `CaptionRenderInput` from captionPipeline.ts (`hookText` may be
absent, mirrored by `Option`). -/
structure CaptionRenderInput where
  duration : ℚ
  position : CaptionPosition
  primaryColorHex : String
  highlightColorHex : Option String
  hookText : Option String
  segments : List CaptionSegment
deriving DecidableEq, Repr

/-- One `drawtext` directive produced by `buildDrawtextFilters`,
represented structurally (text already escaped, colors already resolved,
`enable='between(t,winFrom,winTo)'`). -/
structure DrawtextFilter where
  text : String
  fontsize : ℕ
  fontcolor : String
  borderw : ℕ
  yExpr : String
  winFrom : ℚ
  winTo : ℚ
deriving DecidableEq, Repr

/-- The two modes of `buildDrawtextFilters`. -/
inductive DrawMode
  | normal
  | safe
deriving DecidableEq, Repr

/-- Characters removed in `safe` mode before escaping:
`[`, `]`, `"`, `<`, `>`. -/
def drawtextBreakingChar (c : Char) : Bool :=
  c = '[' || c = ']' || c = '"' || c = '<' || c = '>'

/-- `buildDrawtextFilters` from captionPipeline.ts, as the list of
directives (the source joins them with commas; the joined string is empty
iff this list is empty). -/
def buildDrawtextFilters (input : CaptionRenderInput) (mode : DrawMode) :
    List DrawtextFilter :=
  let y := pickY input.position
  let fontSize : ℕ := if mode = .safe then 44 else 52
  let borderW : ℕ := if mode = .safe then 2 else 3
  let primary := hexNoHash input.primaryColorHex "FFFFFF"
  let hookColor :=
    hexNoHash
      (match input.highlightColorHex with
       | some s => if s = "" then input.primaryColorHex else s
       | none => input.primaryColorHex) "FFD700"
  let hookFilters : List DrawtextFilter :=
    match input.hookText with
    | some ht =>
      if ht = "" then []
      else
        let t := escapeDrawtextText ht.toUpper
        if t = "" then []
        else [⟨t, 60, hookColor, borderW, "h*0.15", 0, 6/5⟩]
    | none => []
  let segFilters : List DrawtextFilter :=
    input.segments.filterMap (fun seg =>
      let t :=
        if mode = .safe then
          ⟨seg.text.data.filter (fun c => !drawtextBreakingChar c)⟩
        else seg.text
      let escaped := escapeDrawtextText t
      if escaped = "" then none
      else some ⟨escaped, fontSize, primary, borderW, y, seg.start, seg.stop⟩)
  hookFilters ++ segFilters

/-- Consecutive chunks of size `groupSize` (the
`for (let i = 0; i < length; i += groupSize) slice(i, i + groupSize)`
loop of `mergeSegmentsForOverlay`); for `groupSize = 0` — unreachable
from the source call site — chunks of one are produced instead of
looping forever. -/
def chunkList (groupSize : ℕ) : List CaptionSegment → List (List CaptionSegment)
  | [] => []
  | a :: l => (a :: l.take (groupSize - 1)) :: chunkList groupSize (l.drop (groupSize - 1))
termination_by l => l.length
decreasing_by
  simp only [List.length_drop, List.length_cons]
  omega

/-- Combine one chunk as `mergeSegmentsForOverlay` does: texts joined by
single spaces, window from the chunk's first start to its last end. -/
def combineGroup (g : List CaptionSegment) : CaptionSegment :=
  { text := String.intercalate " " (g.map (·.text))
    start := ((g.head?).map (·.start)).getD 0
    stop := ((g.getLast?).map (·.stop)).getD 0 }

/-- `mergeSegmentsForOverlay` from captionPipeline.ts: if more than
`maxCount` segments, group adjacent segments in chunks of
`Math.ceil(length / maxCount)` and merge each chunk. -/
def mergeSegmentsForOverlay (segments : List CaptionSegment) (maxCount : ℕ) :
    List CaptionSegment :=
  if segments.length ≤ maxCount then segments
  else
    let groupSize := (segments.length + maxCount - 1) / maxCount
    (chunkList groupSize segments).map combineGroup

/-- `CaptionStrategy` from captionPipeline.ts (the source also lists
`C_overlay_fallback`, which no code path produces). -/
inductive CaptionStrategy
  | A_drawtext
  | B_drawtext_safe
  | C_overlay_images
  | C_overlay_fallback
  | no_captions
deriving DecidableEq, Repr

/-- `CaptionRenderResult` from captionPipeline.ts. -/
structure CaptionRenderResult where
  usedStrategy : CaptionStrategy
  hadAnyCaptions : Bool
deriving DecidableEq, Repr

/-- Which encode invocation an `ffmpeg.exec` call belongs to. -/
inductive ExecKind
  | stratA
  | stratB
  | stratCImg
  | stratCPlain
  | finalPlain
deriving DecidableEq, Repr

/-- Environment of one `renderCaptionsWithFallback` call: whether font
staging (`ensureFontInFS`) succeeded, whether the canvas overlay
rasterization of strategy C succeeds, and the exit status of the k-th
`ffmpeg.exec` invocation (`exec k = true` means exit code 0; a rejected
promise is handled identically to a non-zero exit by the source's
`try`/`catch`, so both are `false`). -/
structure RenderEnv where
  fontLoaded : Bool
  overlayOk : Bool
  exec : ℕ → Bool

/-- Observable outcome of `renderCaptionsWithFallback`: the returned
result (or the final thrown error, as `Except.error ()`), the encode
invocations attempted in order, and how many caption elements (drawtext
directives or overlay images) the successful encode actually contained
(`0` when it failed). -/
structure RenderTrace where
  result : Except Unit CaptionRenderResult
  attempts : List ExecKind
  placed : ℕ

/-- One overlay image staged by strategy C (`ov_hook.png` / `ov_i.png`),
with its `enable='between(t,start,stop)'` window. -/
structure OverlayItem where
  isHook : Bool
  start : ℚ
  stop : ℚ
  text : String
deriving DecidableEq, Repr

/-- JS truthiness of the raw `params.captions.hookText`. -/
def hookTruthy (captions : CaptionRenderInput) : Bool :=
  match captions.hookText with
  | some s => !(s = "")
  | none => false

/-- The `captionInput` value built at the top of
`renderCaptionsWithFallback`: hook text stripped (dropped when empty),
segments normalized against the clip duration. -/
def captionInputOf (captions : CaptionRenderInput) (duration : ℚ) :
    CaptionRenderInput :=
  let normalized := normalizeCaptionSegments captions.segments duration
  let hookText := stripInvalidChars (captions.hookText.getD "")
  { captions with
      hookText := if hookText = "" then none else some hookText
      segments := normalized }

/-- The overlay list strategy C composites: the hook overlay (first 1.2 s,
capped at the clip duration) followed by the segment overlays after
`mergeSegmentsForOverlay` against the budget `MAX_OVERLAYS = 15` (minus
one if a hook overlay is present). -/
def overlaysFor (captions : CaptionRenderInput) (duration : ℚ) :
    List OverlayItem :=
  let ci := captionInputOf captions duration
  let hookOv : List OverlayItem :=
    match ci.hookText with
    | some t => [⟨true, 0, min (6/5) duration, t⟩]
    | none => []
  let overlaySegs := mergeSegmentsForOverlay ci.segments (15 - hookOv.length)
  hookOv ++ overlaySegs.map (fun s => ⟨false, s.start, s.stop, s.text⟩)

/-- The terminal fallback of `renderCaptionsWithFallback`: when captions
were not required, one last plain no-caption encode; if it fails too (or
captions were required) the compositor throws. -/
def finalStage (captionsRequired : Bool) (env : RenderEnv) (k : ℕ)
    (att : List ExecKind) : RenderTrace :=
  if captionsRequired then ⟨.error (), att, 0⟩
  else if env.exec k then ⟨.ok ⟨.no_captions, false⟩, att ++ [.finalPlain], 0⟩
  else ⟨.error (), att ++ [.finalPlain], 0⟩

/-- Strategy C of `renderCaptionsWithFallback`: when there is no overlay
to composite, a plain encode reported as `no_captions`; otherwise the
overlay composite (which first rasterizes every overlay — a canvas
failure aborts the strategy before any encode). Any failure falls through
to the terminal fallback. -/
def stratCStage (captionsRequired : Bool) (env : RenderEnv) (hadAny : Bool)
    (overlays : List OverlayItem) (k : ℕ) (att : List ExecKind) : RenderTrace :=
  if overlays.isEmpty then
    if env.exec k then ⟨.ok ⟨.no_captions, false⟩, att ++ [.stratCPlain], 0⟩
    else finalStage captionsRequired env (k + 1) (att ++ [.stratCPlain])
  else if !env.overlayOk then finalStage captionsRequired env k att
  else if env.exec k then
    ⟨.ok ⟨.C_overlay_images, hadAny⟩, att ++ [.stratCImg], overlays.length⟩
  else finalStage captionsRequired env (k + 1) (att ++ [.stratCImg])

/-- Strategies A and B of `renderCaptionsWithFallback` share this shape:
if captions are required and no drawtext directive could be built, the
strategy throws before invoking the encoder; otherwise the encode runs
(with the base filter chain alone when `draw` is empty) and a failure
falls through to `next`. -/
def drawStage (tag : ExecKind) (strat : CaptionStrategy)
    (next : ℕ → List ExecKind → RenderTrace) (captionsRequired : Bool)
    (env : RenderEnv) (hadAny : Bool) (draw : List DrawtextFilter) (k : ℕ)
    (att : List ExecKind) : RenderTrace :=
  if captionsRequired && draw.isEmpty then next k att
  else if env.exec k then ⟨.ok ⟨strat, hadAny⟩, att ++ [tag], draw.length⟩
  else next (k + 1) (att ++ [tag])

/-- `renderCaptionsWithFallback` from captionPipeline.ts over the
environment model `RenderEnv`: normalize input, report
`hadAnyCaptions = Boolean(hookText) || normalized.length > 0`, then run
the ladder A → B → C → terminal fallback (A and B skipped entirely when
the font is not staged). -/
def renderCaptionsWithFallback (captionsRequired : Bool)
    (captions : CaptionRenderInput) (duration : ℚ) (env : RenderEnv) :
    RenderTrace :=
  let ci := captionInputOf captions duration
  let hadAny :=
    hookTruthy captions ||
      !(normalizeCaptionSegments captions.segments duration).isEmpty
  let overlays := overlaysFor captions duration
  let cStage := stratCStage captionsRequired env hadAny overlays
  if env.fontLoaded then
    drawStage .stratA .A_drawtext
      (drawStage .stratB .B_drawtext_safe cStage captionsRequired env hadAny
        (buildDrawtextFilters ci .safe))
      captionsRequired env hadAny (buildDrawtextFilters ci .normal) 0 []
  else cStage 0 []

/-- Two clip windows do not overlap. -/
def nonOverlap (a b : ClipTimings) : Prop :=
  a.endTime ≤ b.startTime ∨ b.endTime ≤ a.startTime

instance (a b : ClipTimings) : Decidable (nonOverlap a b) :=
  inferInstanceAs (Decidable (_ ∨ _))

/-- Specification-level restatement of the Speech Segmenter's break rule:
with `offset` words already accumulated before this word list, the i-th
flag is true iff the segment that started at `segmentStart` must close at
word `i` (max words, pause to the next word, max duration, sentence
punctuation, or last word). -/
def breakFlagsFrom (maxWords : ℕ) (maxDuration : ℚ) (segmentStart : ℚ)
    (offset : ℕ) (words : List WordTimestamp) : List Bool :=
  (List.range words.length).map (fun i =>
    match words[i]? with
    | some w =>
      segBreakCond maxWords maxDuration segmentStart (offset + i + 1) w words[i + 1]?
    | none => true)

/-- The caption segment emitted for one closed word chunk: words joined
by single spaces and trimmed, dropped when empty. -/
def emitSegment (chunk : List WordTimestamp) (segStart stopv : ℚ) :
    List CaptionSegment :=
  let text := trimString (String.intercalate " " (chunk.map (·.word)))
  if text = "" then [] else [⟨text, segStart, stopv⟩]

/-- Specification-level Speech Segmenter: repeatedly close the segment at
the FIRST word index where any break condition holds, emit the joined
(trimmed, non-empty) text over that chunk, and restart at the next word.
This follows the spec's wording; `segLoop` is the source's loop. -/
def specSegments (maxWords : ℕ) (maxDuration : ℚ) :
    (words : List WordTimestamp) → (segmentStart : ℚ) → List CaptionSegment
  | [], _ => []
  | w :: rest, segmentStart =>
    let words := w :: rest
    let k := (breakFlagsFrom maxWords maxDuration segmentStart 0 words).findIdx
      (fun b => b)
    let rest' := words.drop (k + 1)
    let stop := ((words[k]?).map (·.stop)).getD 0
    let nextStart :=
      match rest'.head? with
      | some nw => nw.start
      | none => segmentStart
    emitSegment (words.take (k + 1)) segmentStart stop ++
      specSegments maxWords maxDuration rest' nextStart
termination_by words _ => words.length
decreasing_by
  simp only [List.length_drop, List.length_cons]
  omega

/-- Specification-level `segmentTranscription`. -/
def specSegmentTranscription (words : List WordTimestamp) (maxWords : ℕ)
    (maxDuration : ℚ) : List CaptionSegment :=
  match words with
  | [] => []
  | w :: _ => specSegments maxWords maxDuration words w.start

/-- Invariant of caption-segment lists produced by
`normalizeCaptionSegments` against a clip of length `duration`: every
text is control-stripped, trimmed and non-empty, every window lies in
`[0, duration]` and lasts at least `0.08`, and consecutive windows are
ordered and disjoint. -/
structure NormalizedSegs (duration : ℚ) (l : List CaptionSegment) : Prop where
  mem : ∀ s ∈ l, stripInvalidChars s.text = s.text ∧ s.text ≠ "" ∧
    0 ≤ s.start ∧ s.stop ≤ duration ∧ 8/100 ≤ s.stop - s.start
  chain : l.Chain' (fun a b => a.stop ≤ b.start)

/-- Invariant of the timing lists built by `calculateClipTimings`'s
highlight phase: every window lies in `[0, videoDuration]`, lasts exactly
`clipDuration`, and the windows are mutually non-overlapping. -/
structure TimingsInv (videoDuration clipDuration : ℚ) (l : List ClipTimings) : Prop where
  mem : ∀ t ∈ l, 0 ≤ t.startTime ∧ t.endTime ≤ videoDuration ∧
    t.endTime = t.startTime + clipDuration
  pairwise : l.Pairwise nonOverlap

/-! ## Theorems -/

theorem nonOverlap_symm {a b : ClipTimings} (h : nonOverlap a b) : nonOverlap b a :=
  h.symm

/-- The element test inside `hasOverlapCheck` is false exactly when the
candidate window `[s, s+cd)` is disjoint from `t`, provided both windows
have the same positive length `cd`. -/
theorem overlapElem_false_iff (cd s : ℚ) (t : ClipTimings) (hcd : 0 < cd)
    (hlen : t.endTime = t.startTime + cd) :
    (((decide (t.startTime ≤ s) && decide (s < t.endTime)) ||
      (decide (t.startTime < s + cd) && decide (s + cd ≤ t.endTime))) = false) ↔
    (s + cd ≤ t.startTime ∨ t.endTime ≤ s) := by
  simp only [Bool.or_eq_false_iff, Bool.and_eq_false_iff,
    decide_eq_false_iff_not, not_le, not_lt]
  constructor
  · rintro ⟨h1, h2⟩
    rcases h2 with h2 | h2
    · exact Or.inl h2
    · rcases h1 with h1 | h1
      · exfalso
        rw [hlen] at h2
        linarith
      · exact Or.inr h1
  · rintro (h | h)
    · constructor
      · left
        linarith
      · left
        exact h
    · constructor
      · right
        exact h
      · right
        rw [hlen]
        linarith

/-- `hasOverlapCheck` is a correct disjointness test for equal-length
windows. -/
theorem hasOverlapCheck_false_iff (cd s : ℚ) (timings : List ClipTimings)
    (hcd : 0 < cd)
    (hlen : ∀ t ∈ timings, t.endTime = t.startTime + cd) :
    hasOverlapCheck s (s + cd) timings = false ↔
      ∀ t ∈ timings, s + cd ≤ t.startTime ∨ t.endTime ≤ s := by
  unfold hasOverlapCheck
  rw [List.any_eq_false]
  constructor
  · intro h t ht
    have h' := h t ht
    rw [Bool.not_eq_true] at h'
    exact (overlapElem_false_iff cd s t hcd (hlen t ht)).mp h'
  · intro h t ht
    rw [Bool.not_eq_true]
    exact (overlapElem_false_iff cd s t hcd (hlen t ht)).mpr (h t ht)

/-- The highlight-phase candidate window lies in `[0, videoDuration]` and
has length exactly `clipDuration`. -/
theorem highlightWindow_bounds (vd cd : ℚ) (a : Highlight) (hcd : 0 < cd)
    (hle : cd ≤ vd) :
    0 ≤ (highlightWindow vd cd a).startTime ∧
    (highlightWindow vd cd a).endTime ≤ vd ∧
    (highlightWindow vd cd a).endTime = (highlightWindow vd cd a).startTime + cd := by
  unfold highlightWindow
  by_cases hc : vd < max 0 (a.time - 3) + cd
  · rw [if_pos hc]
    have h0 : max 0 (vd - cd) = vd - cd := max_eq_right (by linarith)
    refine ⟨?_, ?_, ?_⟩
    · show 0 ≤ max 0 (vd - cd)
      exact le_max_left _ _
    · show vd ≤ vd
      exact le_refl vd
    · show vd = max 0 (vd - cd) + cd
      rw [h0]
      ring
  · rw [if_neg hc]
    push_neg at hc
    refine ⟨?_, ?_, ?_⟩
    · show 0 ≤ max 0 (a.time - 3)
      exact le_max_left _ _
    · exact hc
    · rfl

/-- The `forEach` highlight-acceptance loop preserves the timing
invariant and adds at most one window per highlight. -/
theorem acceptHighlights_inv (vd cd : ℚ) (hcd : 0 < cd) (hle : cd ≤ vd)
    (hs : List Highlight) :
    TimingsInv vd cd (acceptHighlights vd cd hs) ∧
      (acceptHighlights vd cd hs).length ≤ hs.length := by
  unfold acceptHighlights
  suffices H : ∀ acc, TimingsInv vd cd acc →
      TimingsInv vd cd (hs.foldl (fun timings h =>
        if hasOverlapCheck (highlightWindow vd cd h).startTime
            (highlightWindow vd cd h).endTime timings then timings
        else timings ++ [highlightWindow vd cd h]) acc) ∧
      (hs.foldl (fun timings h =>
        if hasOverlapCheck (highlightWindow vd cd h).startTime
            (highlightWindow vd cd h).endTime timings then timings
        else timings ++ [highlightWindow vd cd h]) acc).length ≤
        acc.length + hs.length by
    have h0 := H [] ⟨by simp, List.Pairwise.nil⟩
    exact ⟨h0.1, by simpa using h0.2⟩
  induction hs with
  | nil =>
    intro acc hacc
    exact ⟨hacc, by simp⟩
  | cons a as ih =>
    intro acc hacc
    simp only [List.foldl_cons]
    by_cases hov : hasOverlapCheck (highlightWindow vd cd a).startTime
        (highlightWindow vd cd a).endTime acc
    · rw [if_pos hov]
      have hr := ih acc hacc
      refine ⟨hr.1, ?_⟩
      calc _ ≤ acc.length + as.length := hr.2
        _ ≤ acc.length + (a :: as).length := by simp
    · rw [if_neg hov]
      rw [Bool.not_eq_true] at hov
      obtain ⟨hws, hwe, hwl⟩ := highlightWindow_bounds vd cd a hcd hle
      set w := highlightWindow vd cd a with hw
      have hacc' : TimingsInv vd cd (acc ++ [w]) := by
        obtain ⟨hmem, hpw⟩ := hacc
        constructor
        · intro t ht
          rcases List.mem_append.mp ht with ht | ht
          · exact hmem t ht
          · rcases List.mem_singleton.mp ht with rfl
            exact ⟨hws, hwe, hwl⟩
        · rw [List.pairwise_append]
          refine ⟨hpw, List.pairwise_singleton _ _, ?_⟩
          intro t ht w' hw'
          rcases List.mem_singleton.mp hw' with rfl
          have hck : hasOverlapCheck w.startTime (w.startTime + cd) acc = false := by
            rw [← hwl]
            exact hov
          have hd := (hasOverlapCheck_false_iff cd w.startTime acc hcd
            (fun t ht => (hmem t ht).2.2)).mp hck t ht
          rcases hd with h | h
          · right
            rw [hwl]
            exact h
          · left
            exact h
      have hr := ih (acc ++ [w]) hacc'
      refine ⟨hr.1, ?_⟩
      have h2 := hr.2
      simp only [List.length_append, List.length_singleton, List.length_cons,
        List.length_nil] at h2 ⊢
      omega

/-- The linear-fill loop preserves the timing invariant, never exceeds
`count` windows, and only extends the list. -/
theorem fillLoop_inv (vd cd interval : ℚ) (count : ℕ) (hcd : 0 < cd)
    (hint : 0 ≤ interval) :
    ∀ (fuel : ℕ) (cs : ℚ) (timings res : List ClipTimings),
      0 ≤ cs → TimingsInv vd cd timings → timings.length ≤ count →
      fillLoop vd cd interval count fuel cs timings = some res →
      TimingsInv vd cd res ∧ res.length ≤ count := by
  intro fuel
  induction fuel with
  | zero => intro cs timings res _ _ _ h; simp [fillLoop] at h
  | succ n ih =>
    intro cs timings res hcs hinv hlen h
    rw [fillLoop] at h
    by_cases hc : timings.length < count ∧ cs + cd ≤ vd
    · rw [if_pos hc] at h
      by_cases hov : hasOverlapCheck cs (cs + cd) timings
      · rw [if_pos hov] at h
        exact ih (cs + interval) timings res (by linarith) hinv hlen h
      · rw [if_neg hov] at h
        rw [Bool.not_eq_true] at hov
        have hinv' : TimingsInv vd cd (timings ++ [⟨cs, cs + cd, none⟩]) := by
          obtain ⟨hmem, hpw⟩ := hinv
          constructor
          · intro t ht
            rcases List.mem_append.mp ht with ht | ht
            · exact hmem t ht
            · rcases List.mem_singleton.mp ht with rfl
              exact ⟨hcs, hc.2, rfl⟩
          · rw [List.pairwise_append]
            refine ⟨hpw, List.pairwise_singleton _ _, ?_⟩
            intro t ht w' hw'
            rcases List.mem_singleton.mp hw' with rfl
            have hd := (hasOverlapCheck_false_iff cd cs timings hcd
              (fun t ht => (hmem t ht).2.2)).mp hov t ht
            rcases hd with h' | h'
            · exact Or.inr h'
            · exact Or.inl h'
        exact ih (cs + interval) _ res (by linarith) hinv'
          (by simpa using hc.1) h
    · rw [if_neg hc] at h
      cases h
      exact ⟨hinv, hlen⟩

/-- The uniform branch of `calculateClipTimings` evaluates to the sorted
evenly-spaced list. -/
theorem calculateClipTimings_nil_eval (fuel : ℕ) (vd : ℚ) (cfg : CutConfig) :
    calculateClipTimings fuel vd cfg [] =
      some (List.insertionSort timingStartLE ((List.range cfg.count).map (fun (i : ℕ) =>
        ⟨(i : ℚ) * ((vd - cfg.duration) /
            (if 1 < cfg.count then (cfg.count : ℚ) - 1 else 1)),
         (i : ℚ) * ((vd - cfg.duration) /
            (if 1 < cfg.count then (cfg.count : ℚ) - 1 else 1)) + cfg.duration,
         none⟩))) :=
  rfl

/-- The evenly-spaced window list is already sorted by start when the
spacing is non-negative. -/
theorem uniformList_sorted (itv cd : ℚ) (hitv : 0 ≤ itv) (count : ℕ) :
    List.Sorted timingStartLE ((List.range count).map (fun (i : ℕ) =>
      (⟨(i : ℚ) * itv, (i : ℚ) * itv + cd, none⟩ : ClipTimings))) := by
  rw [List.Sorted, List.pairwise_map]
  apply List.Pairwise.imp ?_ (List.pairwise_lt_range count)
  intro i j hij
  show (i : ℚ) * itv ≤ (j : ℚ) * itv
  have : (i : ℚ) ≤ (j : ℚ) := by exact_mod_cast le_of_lt hij
  exact mul_le_mul_of_nonneg_right this hitv

/-- C2 counterexample: in uniform mode the claim's non-overlap guarantee
fails — source duration 40, `duration=30, count=3` (a valid config:
`0 < 30 ≤ 40`, `3 ≥ 1`) yields the windows `[0,30), [5,35), [10,40)`,
which overlap pairwise. -/
theorem calculateClipTimings_uniform_overlap :
    calculateClipTimings 0 40 ⟨30, 3, 1, 0, false, ""⟩ [] =
      some [⟨0, 30, none⟩, ⟨5, 35, none⟩, ⟨10, 40, none⟩] ∧
    ¬ List.Pairwise nonOverlap
        [(⟨0, 30, none⟩ : ClipTimings), ⟨5, 35, none⟩, ⟨10, 40, none⟩] := by
  constructor
  · norm_num [calculateClipTimings, List.range_succ, List.insertionSort,
      List.orderedInsert, timingStartLE]
  · intro h
    rw [List.pairwise_cons] at h
    have h01 := h.1 _ (List.mem_cons_self _ _)
    rcases h01 with h' | h' <;> norm_num [nonOverlap] at h'

/-- C2 (amended): for every valid configuration (`0 < duration ≤
sourceDuration`, `count ≥ 1`), any window list the Clip Timing Planner
returns is sorted ascending by start and consists of windows of length
exactly `duration` lying inside `[0, sourceDuration]`; with a non-empty
highlight list the windows are moreover mutually non-overlapping and
number at most `count` (possibly fewer than `count` even when more would
fit); with an empty highlight list there are exactly `count` windows —
which, as the counterexample shows, may overlap. -/
theorem calculateClipTimings_partial_correct (fuel : ℕ) (sd : ℚ)
    (cfg : CutConfig) (hl : List Highlight) (res : List ClipTimings)
    (h1 : 0 < cfg.duration) (h2 : cfg.duration ≤ sd) (h3 : 1 ≤ cfg.count)
    (hres : calculateClipTimings fuel sd cfg hl = some res) :
    (∀ t ∈ res, 0 ≤ t.startTime ∧ t.endTime ≤ sd ∧
      t.endTime = t.startTime + cfg.duration) ∧
    res.Pairwise timingStartLE ∧
    (hl ≠ [] → res.Pairwise nonOverlap ∧ res.length ≤ cfg.count) ∧
    (hl = [] → res.length = cfg.count) := by
  by_cases hnil : hl = []
  · subst hnil
    rw [calculateClipTimings_nil_eval] at hres
    set itv : ℚ := (sd - cfg.duration) /
      (if 1 < cfg.count then (cfg.count : ℚ) - 1 else 1) with hitv
    have hden : (0 : ℚ) < (if 1 < cfg.count then (cfg.count : ℚ) - 1 else 1) := by
      by_cases hcnt : 1 < cfg.count
      · rw [if_pos hcnt]
        have : (1 : ℚ) < (cfg.count : ℚ) := by exact_mod_cast hcnt
        linarith
      · rw [if_neg hcnt]
        norm_num
    have hitv0 : 0 ≤ itv := div_nonneg (by linarith) (le_of_lt hden)
    have hres' : res = List.insertionSort timingStartLE
        ((List.range cfg.count).map (fun (i : ℕ) =>
          ⟨(i : ℚ) * itv, (i : ℚ) * itv + cfg.duration, none⟩)) := by
      exact (Option.some_injective _ hres).symm
    refine ⟨?_, ?_, fun hne => absurd rfl hne, fun _ => ?_⟩
    · intro t ht
      rw [hres'] at ht
      rw [List.mem_insertionSort, List.mem_map] at ht
      obtain ⟨i, hi, rfl⟩ := ht
      rw [List.mem_range] at hi
      have hi' : (i : ℚ) ≤ (cfg.count : ℚ) - 1 := by
        have : (i : ℚ) + 1 ≤ (cfg.count : ℚ) := by exact_mod_cast hi
        linarith
      refine ⟨mul_nonneg (by positivity) hitv0, ?_, rfl⟩
      show (i : ℚ) * itv + cfg.duration ≤ sd
      have hmul : (i : ℚ) * itv ≤ sd - cfg.duration := by
        by_cases hcnt : 1 < cfg.count
        · have hden' : (0 : ℚ) < (cfg.count : ℚ) - 1 := by
            have : (1 : ℚ) < (cfg.count : ℚ) := by exact_mod_cast hcnt
            linarith
          have hfull : ((cfg.count : ℚ) - 1) * itv = sd - cfg.duration := by
            rw [hitv, if_pos hcnt]
            field_simp
          calc (i : ℚ) * itv ≤ ((cfg.count : ℚ) - 1) * itv :=
                mul_le_mul_of_nonneg_right hi' hitv0
            _ = sd - cfg.duration := hfull
        · have hc1 : cfg.count = 1 := le_antisymm (by omega) h3
          have hio : i = 0 := by omega
          subst hio
          simpa using by linarith
      linarith
    · rw [hres']
      exact List.sorted_insertionSort timingStartLE _
    · rw [hres', List.length_insertionSort, List.length_map, List.length_range]
  · have hne : hl.isEmpty = false := by
      cases hl with
      | nil => exact absurd rfl hnil
      | cons a as => rfl
    unfold calculateClipTimings at hres
    rw [hne] at hres
    simp only [Bool.false_eq_true, if_false] at hres
    set sh := (hl.insertionSort highlightIntensityGE).take cfg.count with hsh
    set t0 := acceptHighlights sd cfg.duration sh with ht0
    obtain ⟨hinv0, hlen0⟩ := acceptHighlights_inv sd cfg.duration h1 h2 sh
    have hlen0' : t0.length ≤ cfg.count := by
      calc t0.length ≤ sh.length := hlen0
        _ ≤ cfg.count := by
          rw [hsh]
          simpa using List.length_take_le _ _
    have hmain : ∀ l, (if t0.length < cfg.count then
          fillLoop sd cfg.duration ((sd - cfg.duration) /
            ((cfg.count : ℚ) - (t0.length : ℚ))) cfg.count fuel 0 t0
        else some t0) = some l →
        TimingsInv sd cfg.duration l ∧ l.length ≤ cfg.count := by
      intro l hsome
      by_cases hfill : t0.length < cfg.count
      · rw [if_pos hfill] at hsome
        have hintpos : (0 : ℚ) < (cfg.count : ℚ) - (t0.length : ℚ) := by
          have : (t0.length : ℚ) < (cfg.count : ℚ) := by exact_mod_cast hfill
          linarith
        exact fillLoop_inv sd cfg.duration _ cfg.count h1
          (div_nonneg (by linarith) (le_of_lt hintpos)) fuel 0 t0 l
          (le_refl 0) hinv0 hlen0' hsome
      · rw [if_neg hfill] at hsome
        cases hsome
        exact ⟨hinv0, hlen0'⟩
    obtain ⟨l, hleq, rfl⟩ : ∃ l, (if t0.length < cfg.count then
        fillLoop sd cfg.duration ((sd - cfg.duration) /
          ((cfg.count : ℚ) - (t0.length : ℚ))) cfg.count fuel 0 t0
      else some t0) = some l ∧ res = List.insertionSort timingStartLE l := by
      by_cases hfill : t0.length < cfg.count
      · rw [if_pos hfill] at hres ⊢
        cases hopt : fillLoop sd cfg.duration ((sd - cfg.duration) /
            ((cfg.count : ℚ) - (t0.length : ℚ))) cfg.count fuel 0 t0 with
        | none => rw [hopt] at hres; simp at hres
        | some l =>
          rw [hopt] at hres
          simp only [Option.map_some'] at hres
          exact ⟨l, rfl, (Option.some_injective _ hres).symm⟩
      · rw [if_neg hfill] at hres ⊢
        simp only [Option.map_some'] at hres
        exact ⟨t0, rfl, (Option.some_injective _ hres).symm⟩
    obtain ⟨⟨hmem, hpw⟩, hlen⟩ := hmain l hleq
    have hperm : List.Perm (List.insertionSort timingStartLE l) l :=
      List.perm_insertionSort timingStartLE l
    refine ⟨?_, ?_, fun _ => ⟨?_, ?_⟩, fun he => absurd he hnil⟩
    · intro t ht
      exact hmem t ((List.mem_insertionSort timingStartLE).mp ht)
    · exact List.sorted_insertionSort timingStartLE l
    · exact (List.Perm.pairwise_iff (fun h => nonOverlap_symm h) hperm).mpr hpw
    · rw [List.length_insertionSort]
      exact hlen

/-- C5 counterexample: for a 1920×1080 source the smart crop yields
606×1080 — even dimensions, but NOT exactly 9:16 aspect
(16·606 = 9696 ≠ 9720 = 9·1080), because the exact 9:16 width 607.5 is
floored to even. -/
theorem computeCrop_1920_1080_not_exact :
    computeCrop 1920 1080 = (606, 1080) ∧ ¬ 16 * (606 : ℤ) = 9 * 1080 := by
  constructor
  · have hfloor : ⌊(1080 : ℚ) * (9 / 16)⌋ = 607 := by
      rw [Int.floor_eq_iff]
      norm_num
    have hc : ((9 : ℚ) / 16 < (1920 : ℚ) / (1080 : ℚ)) := by norm_num
    simp only [computeCrop]
    norm_num [hfloor, hc]
  · decide

/-- C5 (amended): for every positive source frame, the smart crop of
`buildFilterChain` produces even dimensions that fit inside the frame and
approximate the largest 9:16 rectangle to within the even-floor: in the
wider branch (`9·h < 16·w`) the crop height is `h` evened down and the
crop width `cw` satisfies `16·cw ≤ 9·h < 16·(cw+2)`; symmetrically in the
taller branch.  Exact 9:16 aspect is not guaranteed (see the 1920×1080
counterexample). -/
theorem computeCrop_even_fits (w h : ℕ) (hw : 0 < w) (hh : 0 < h) :
    2 ∣ (computeCrop w h).1 ∧ 2 ∣ (computeCrop w h).2 ∧
    0 ≤ (computeCrop w h).1 ∧ (computeCrop w h).1 ≤ (w : ℤ) ∧
    0 ≤ (computeCrop w h).2 ∧ (computeCrop w h).2 ≤ (h : ℤ) ∧
    (9 * (h : ℤ) < 16 * (w : ℤ) →
      16 * (computeCrop w h).1 ≤ 9 * (h : ℤ) ∧
      9 * (h : ℤ) < 16 * ((computeCrop w h).1 + 2) ∧
      (computeCrop w h).2 = (h : ℤ) - (h : ℤ) % 2) ∧
    (16 * (w : ℤ) ≤ 9 * (h : ℤ) →
      9 * (computeCrop w h).2 ≤ 16 * (w : ℤ) ∧
      16 * (w : ℤ) < 9 * ((computeCrop w h).2 + 2) ∧
      (computeCrop w h).1 = (w : ℤ) - (w : ℤ) % 2) := by
  have hwQ : (0 : ℚ) < (w : ℚ) := by exact_mod_cast hw
  have hhQ : (0 : ℚ) < (h : ℚ) := by exact_mod_cast hh
  have hcond : ((9 : ℚ) / 16 < (w : ℚ) / (h : ℚ)) ↔
      (9 * (h : ℤ) < 16 * (w : ℤ)) := by
    rw [div_lt_div_iff₀ (by norm_num) hhQ]
    constructor
    · intro hx
      have h9 : (9 : ℚ) * (h : ℚ) < 16 * (w : ℚ) := by linarith
      exact_mod_cast h9
    · intro hx
      have h9 : (9 : ℚ) * (h : ℚ) < 16 * (w : ℚ) := by exact_mod_cast hx
      linarith
  by_cases hc : (9 : ℚ) / 16 < (w : ℚ) / (h : ℚ)
  · have hfst : (computeCrop w h).1 =
        ⌊(h : ℚ) * (9 / 16)⌋ - ⌊(h : ℚ) * (9 / 16)⌋ % 2 := by
      simp [computeCrop, hc]
    have hsnd : (computeCrop w h).2 = (h : ℤ) - (h : ℤ) % 2 := by
      simp [computeCrop, hc]
    set a : ℤ := ⌊(h : ℚ) * (9 / 16)⌋ with ha
    have ha1 : (a : ℚ) ≤ (h : ℚ) * (9 / 16) := Int.floor_le _
    have ha2 : (h : ℚ) * (9 / 16) < (a : ℚ) + 1 := Int.lt_floor_add_one _
    have ha1' : 16 * a ≤ 9 * (h : ℤ) := by
      have hr : (16 : ℚ) * (a : ℚ) ≤ 9 * (h : ℚ) := by nlinarith
      exact_mod_cast hr
    have ha2' : 9 * (h : ℤ) < 16 * (a + 1) := by
      have hr : (9 : ℚ) * (h : ℚ) < 16 * ((a : ℚ) + 1) := by nlinarith
      exact_mod_cast hr
    have hwi : 9 * (h : ℤ) < 16 * (w : ℤ) := hcond.mp hc
    rw [hfst, hsnd]
    omega
  · have hfst : (computeCrop w h).1 = (w : ℤ) - (w : ℤ) % 2 := by
      simp [computeCrop, hc]
    have hsnd : (computeCrop w h).2 =
        ⌊(w : ℚ) / (9 / 16)⌋ - ⌊(w : ℚ) / (9 / 16)⌋ % 2 := by
      simp [computeCrop, hc]
    set b : ℤ := ⌊(w : ℚ) / (9 / 16)⌋ with hb
    have hb0 : (w : ℚ) / ((9 : ℚ) / 16) = (w : ℚ) * 16 / 9 := by
      rw [div_div_eq_mul_div]
    have hb1 : (b : ℚ) ≤ (w : ℚ) * 16 / 9 := by
      rw [← hb0]
      exact Int.floor_le _
    have hb2 : (w : ℚ) * 16 / 9 < (b : ℚ) + 1 := by
      rw [← hb0]
      exact Int.lt_floor_add_one _
    have hb1' : 9 * b ≤ 16 * (w : ℤ) := by
      have hr : (9 : ℚ) * (b : ℚ) ≤ 16 * (w : ℚ) := by
        rw [le_div_iff₀ (by norm_num : (0:ℚ) < 9)] at hb1
        nlinarith
      exact_mod_cast hr
    have hb2' : 16 * (w : ℤ) < 9 * (b + 1) := by
      have hr : (16 : ℚ) * (w : ℚ) < 9 * ((b : ℚ) + 1) := by
        rw [div_lt_iff₀ (by norm_num : (0:ℚ) < 9)] at hb2
        nlinarith
      exact_mod_cast hr
    have hwi : ¬ 9 * (h : ℤ) < 16 * (w : ℤ) := fun hx => hc (hcond.mpr hx)
    rw [hfst, hsnd]
    omega

/-- C5 witness: the amended crop theorem instantiated at the 1920×1080
frame of the claim's scenario. -/
theorem computeCrop_even_fits_witness :
    0 < 1920 ∧ 0 < 1080 ∧
    (2 ∣ (computeCrop 1920 1080).1 ∧ 2 ∣ (computeCrop 1920 1080).2 ∧
    0 ≤ (computeCrop 1920 1080).1 ∧ (computeCrop 1920 1080).1 ≤ (1920 : ℤ) ∧
    0 ≤ (computeCrop 1920 1080).2 ∧ (computeCrop 1920 1080).2 ≤ (1080 : ℤ) ∧
    (9 * (1080 : ℤ) < 16 * (1920 : ℤ) →
      16 * (computeCrop 1920 1080).1 ≤ 9 * (1080 : ℤ) ∧
      9 * (1080 : ℤ) < 16 * ((computeCrop 1920 1080).1 + 2) ∧
      (computeCrop 1920 1080).2 = (1080 : ℤ) - (1080 : ℤ) % 2) ∧
    (16 * (1920 : ℤ) ≤ 9 * (1080 : ℤ) →
      9 * (computeCrop 1920 1080).2 ≤ 16 * (1920 : ℤ) ∧
      16 * (1920 : ℤ) < 9 * ((computeCrop 1920 1080).2 + 2) ∧
      (computeCrop 1920 1080).1 = (1920 : ℤ) - (1920 : ℤ) % 2)) :=
  ⟨by decide, by decide, computeCrop_even_fits 1920 1080 (by decide) (by decide)⟩

/-- C2 witness: the amended planner theorem instantiated at a concrete
highlight-mode run — source 100 s, `duration=30, count=2`, one highlight
at 10 s — whose result is `[7,37) , [70,100)`. -/
theorem calculateClipTimings_partial_correct_witness :
    ((0 : ℚ) < 30 ∧ (30 : ℚ) ≤ 100 ∧ 1 ≤ 2 ∧
      calculateClipTimings 3 100 ⟨30, 2, 1, 0, false, ""⟩ [⟨10, 1/2⟩] =
        some [⟨7, 37, some (1/2)⟩, ⟨70, 100, none⟩]) ∧
    ((∀ t ∈ [(⟨7, 37, some (1/2)⟩ : ClipTimings), ⟨70, 100, none⟩],
        0 ≤ t.startTime ∧ t.endTime ≤ 100 ∧ t.endTime = t.startTime + 30) ∧
      List.Pairwise timingStartLE
        [(⟨7, 37, some (1/2)⟩ : ClipTimings), ⟨70, 100, none⟩] ∧
      ([(⟨10, 1/2⟩ : Highlight)] ≠ [] →
        List.Pairwise nonOverlap
          [(⟨7, 37, some (1/2)⟩ : ClipTimings), ⟨70, 100, none⟩] ∧
        [(⟨7, 37, some (1/2)⟩ : ClipTimings), ⟨70, 100, none⟩].length ≤ 2) ∧
      ([(⟨10, 1/2⟩ : Highlight)] = [] →
        [(⟨7, 37, some (1/2)⟩ : ClipTimings), ⟨70, 100, none⟩].length = 2)) := by
  have heval : calculateClipTimings 3 100 ⟨30, 2, 1, 0, false, ""⟩ [⟨10, 1/2⟩] =
      some [⟨7, 37, some (1/2)⟩, ⟨70, 100, none⟩] := by
    norm_num [calculateClipTimings, acceptHighlights, highlightWindow,
      hasOverlapCheck, fillLoop, List.insertionSort, List.orderedInsert,
      timingStartLE, highlightIntensityGE]
  refine ⟨⟨by norm_num, by norm_num, by norm_num, heval⟩, ?_⟩
  exact calculateClipTimings_partial_correct 3 100 ⟨30, 2, 1, 0, false, ""⟩
    [⟨10, 1/2⟩] [⟨7, 37, some (1/2)⟩, ⟨70, 100, none⟩]
    (by norm_num) (by norm_num) (by norm_num) heval

/-- C3 (code-bug witness): with `sourceDuration = duration = 30`,
`count = 2` and one highlight at t=10, the highlight phase accepts the
single window `[0,30)`, the fill interval is `(30-30)/(2-1) = 0`, and the
linear-fill `while` loop never terminates: the candidate `[0,30)` always
overlaps and `currentStart` never advances, so no amount of fuel makes
the planner return. -/
theorem calculateClipTimings_infinite_loop :
    ∀ fuel : ℕ,
      calculateClipTimings fuel 30 ⟨30, 2, 1, 0, false, ""⟩ [⟨10, 1/2⟩] = none := by
  have hov : hasOverlapCheck 0 (0 + 30) [(⟨0, 30, some (1/2)⟩ : ClipTimings)] = true := by
    norm_num [hasOverlapCheck]
  have hfill : ∀ f : ℕ,
      fillLoop 30 30 0 2 f 0 [(⟨0, 30, some (1/2)⟩ : ClipTimings)] = none := by
    intro f
    induction f with
    | zero => rfl
    | succ n ih =>
      rw [fillLoop]
      rw [if_pos (⟨by norm_num, by norm_num⟩ :
        [(⟨0, 30, some (1/2)⟩ : ClipTimings)].length < 2 ∧ (0 : ℚ) + 30 ≤ 30)]
      rw [if_pos hov]
      rw [show (0 : ℚ) + 0 = 0 by norm_num]
      exact ih
  intro fuel
  norm_num [calculateClipTimings, acceptHighlights, highlightWindow,
    hasOverlapCheck, List.insertionSort, List.orderedInsert,
    highlightIntensityGE, hfill fuel]

/-- C6: in uniform mode (no peaks) with a valid config, window `i` starts
at exactly `i * (sourceDuration - clipDuration) / (count - 1)` and ends
`clipDuration` later when `count ≥ 2`, and `count = 1` yields the single
window `[0, clipDuration)`. -/
theorem calculateClipTimings_uniform_spacing (fuel : ℕ) (sd : ℚ)
    (cfg : CutConfig) (h1 : 0 < cfg.duration) (h2 : cfg.duration ≤ sd) :
    (2 ≤ cfg.count →
      calculateClipTimings fuel sd cfg [] =
        some ((List.range cfg.count).map (fun (i : ℕ) =>
          ⟨(i : ℚ) * ((sd - cfg.duration) / ((cfg.count : ℚ) - 1)),
           (i : ℚ) * ((sd - cfg.duration) / ((cfg.count : ℚ) - 1)) + cfg.duration,
           none⟩))) ∧
    (cfg.count = 1 →
      calculateClipTimings fuel sd cfg [] = some [⟨0, cfg.duration, none⟩]) := by
  constructor
  · intro hcnt
    rw [calculateClipTimings_nil_eval]
    have hif : (if 1 < cfg.count then (cfg.count : ℚ) - 1 else 1) =
        (cfg.count : ℚ) - 1 := if_pos (by omega)
    rw [hif]
    congr 1
    apply List.Sorted.insertionSort_eq
    apply uniformList_sorted
    apply div_nonneg (by linarith)
    have hc2 : (2 : ℚ) ≤ (cfg.count : ℚ) := by exact_mod_cast hcnt
    linarith
  · intro hcnt
    rw [calculateClipTimings_nil_eval, hcnt]
    norm_num [List.insertionSort]

/-- Members of a trimmed character list come from the original list. -/
theorem mem_trimChars {a : Char} {l : List Char} (h : a ∈ trimChars l) :
    a ∈ l := by
  unfold trimChars at h
  rw [List.mem_reverse] at h
  have h1 := (List.dropWhile_sublist wsChar).mem h
  rw [List.mem_reverse] at h1
  exact (List.dropWhile_sublist wsChar).mem h1

/-- A non-empty `dropWhile` keeps the last element. -/
theorem getLast?_dropWhile (p : Char → Bool) (l : List Char)
    (h : l.dropWhile p ≠ []) : (l.dropWhile p).getLast? = l.getLast? := by
  induction l with
  | nil => simp at h
  | cons a t ih =>
    rw [List.dropWhile_cons] at h ⊢
    by_cases hp : p a
    · rw [if_pos hp] at h ⊢
      have ht : t ≠ [] := by
        intro he
        rw [he] at h
        simp at h
      cases t with
      | nil => exact absurd rfl ht
      | cons b u => rw [ih h, List.getLast?_cons_cons]
    · rw [if_neg hp]

/-- The last character of a trimmed list is not whitespace. -/
theorem trimChars_getLast (l : List Char) :
    ∀ x ∈ (trimChars l).getLast?, wsChar x = false := by
  intro x hx
  unfold trimChars at hx
  rw [List.getLast?_reverse] at hx
  have h := List.head?_dropWhile_not wsChar ((l.dropWhile wsChar).reverse)
  cases heq : (List.dropWhile wsChar ((l.dropWhile wsChar).reverse)).head? with
  | none =>
    rw [heq] at hx
    simp at hx
  | some y =>
    rw [heq] at hx
    simp at hx
    rw [heq] at h
    rw [← hx]
    exact h

/-- The first character of a trimmed list is not whitespace. -/
theorem trimChars_head (l : List Char) :
    ∀ x ∈ (trimChars l).head?, wsChar x = false := by
  intro x hx
  unfold trimChars at hx
  rw [List.head?_reverse] at hx
  by_cases hne : List.dropWhile wsChar ((l.dropWhile wsChar).reverse) = []
  · rw [hne] at hx
    simp at hx
  · rw [getLast?_dropWhile wsChar _ hne, List.getLast?_reverse] at hx
    have h := List.head?_dropWhile_not wsChar l
    cases heq : (l.dropWhile wsChar).head? with
    | none =>
      rw [heq] at hx
      simp at hx
    | some y =>
      rw [heq] at hx
      simp at hx
      rw [heq] at h
      rw [← hx]
      exact h

/-- Trimming a list that is already trimmed at both ends is the
identity. -/
theorem trimChars_of_trimmed {l : List Char}
    (h1 : ∀ x ∈ l.head?, wsChar x = false)
    (h2 : ∀ x ∈ l.getLast?, wsChar x = false) : trimChars l = l := by
  unfold trimChars
  have e1 : l.dropWhile wsChar = l := by
    rw [List.dropWhile_eq_self_iff]
    intro hl
    cases l with
    | nil => simp at hl
    | cons a t =>
      have := h1 a (by simp)
      simp [this]
  rw [e1]
  have e2 : l.reverse.dropWhile wsChar = l.reverse := by
    rw [List.dropWhile_eq_self_iff]
    intro hl
    have hmem : l.reverse.get ⟨0, hl⟩ ∈ l.getLast? := by
      rw [← List.head?_reverse, List.head?_eq_getElem?]
      simp [List.getElem?_eq_getElem hl]
    have := h2 _ hmem
    simp only [Bool.not_eq_true]
    simpa using this
  rw [e2, List.reverse_reverse]

/-- Trimming is idempotent. -/
theorem trimChars_idem (l : List Char) : trimChars (trimChars l) = trimChars l :=
  trimChars_of_trimmed (trimChars_head l) (trimChars_getLast l)

/-- `stripInvalidChars` is idempotent. -/
theorem stripInvalidChars_idem (s : String) :
    stripInvalidChars (stripInvalidChars s) = stripInvalidChars s := by
  unfold stripInvalidChars
  have hdata : (String.mk (trimChars (s.data.filter (fun c => !bannedChar c)))).data =
      trimChars (s.data.filter (fun c => !bannedChar c)) := rfl
  rw [hdata]
  have hfil : (trimChars (s.data.filter (fun c => !bannedChar c))).filter
      (fun c => !bannedChar c) = trimChars (s.data.filter (fun c => !bannedChar c)) := by
    rw [List.filter_eq_self]
    intro a ha
    have := mem_trimChars ha
    rw [List.mem_filter] at this
    exact this.2
  rw [hfil, trimChars_idem]

/-- Any segment produced by the first normalization pass satisfies the
normalized-segment pointwise invariant. -/
theorem safeSegment_mem_prop (d : ℚ) (s s' : CaptionSegment)
    (h : safeSegment d s = some s') :
    stripInvalidChars s'.text = s'.text ∧ s'.text ≠ "" ∧
    0 ≤ s'.start ∧ s'.stop ≤ d ∧ 8/100 ≤ s'.stop - s'.start := by
  unfold safeSegment at h
  by_cases h1 : stripInvalidChars s.text = ""
  · rw [if_pos h1] at h
    cases h
  · rw [if_neg h1] at h
    by_cases h2 : clampQ s.stop 0 d - clampQ s.start 0 d < 8/100
    · rw [if_pos h2] at h
      cases h
    · rw [if_neg h2] at h
      obtain rfl := (Option.some_injective _ h).symm
      push_neg at h2
      have hd : 0 ≤ d := by
        by_contra hd
        push_neg at hd
        have e1 : clampQ s.start 0 d = d :=
          min_eq_left (le_trans (le_of_lt hd) (le_max_left 0 s.start))
        have e2 : clampQ s.stop 0 d = d :=
          min_eq_left (le_trans (le_of_lt hd) (le_max_left 0 s.stop))
        rw [e1, e2] at h2
        linarith
      refine ⟨stripInvalidChars_idem s.text, h1, ?_, ?_, h2⟩
      · exact le_min hd (le_max_left 0 s.start)
      · exact min_le_left d _

/-- The first normalization pass is the identity on segments that
already satisfy the pointwise invariant. -/
theorem safeSegment_id (d : ℚ) (s : CaptionSegment)
    (h1 : stripInvalidChars s.text = s.text) (h2 : s.text ≠ "")
    (h3 : 0 ≤ s.start) (h4 : s.stop ≤ d) (h5 : 8/100 ≤ s.stop - s.start) :
    safeSegment d s = some s := by
  unfold safeSegment
  rw [h1, if_neg h2]
  have hstart : clampQ s.start 0 d = s.start := by
    unfold clampQ
    rw [max_eq_right h3]
    exact min_eq_right (by linarith)
  have hstop : clampQ s.stop 0 d = s.stop := by
    unfold clampQ
    rw [max_eq_right (by linarith)]
    exact min_eq_right h4
  rw [hstart, hstop, if_neg (by linarith)]

/-- `filterMap` over a pointwise-identity function is the identity. -/
theorem filterMap_safeSegment_id (d : ℚ) (l : List CaptionSegment)
    (h : ∀ s ∈ l, safeSegment d s = some s) :
    l.filterMap (safeSegment d) = l := by
  induction l with
  | nil => rfl
  | cons a t ih =>
    rw [List.filterMap_cons, h a (List.mem_cons_self a t)]
    rw [ih (fun s hs => h s (List.mem_cons_of_mem a hs))]

/-- The de-overlap fold preserves the normalized-segment invariant. -/
theorem dedupFold_normalized (d : ℚ) (S : List CaptionSegment)
    (hS : ∀ s ∈ S, stripInvalidChars s.text = s.text ∧ s.text ≠ "" ∧
      0 ≤ s.start ∧ s.stop ≤ d ∧ 8/100 ≤ s.stop - s.start) :
    ∀ acc, NormalizedSegs d acc → NormalizedSegs d (S.foldl dedupStep acc) := by
  induction S with
  | nil => intro acc hacc; exact hacc
  | cons a t ih =>
    intro acc hacc
    have ha := hS a (List.mem_cons_self a t)
    have hS' : ∀ s ∈ t, stripInvalidChars s.text = s.text ∧ s.text ≠ "" ∧
        0 ≤ s.start ∧ s.stop ≤ d ∧ 8/100 ≤ s.stop - s.start :=
      fun s hs => hS s (List.mem_cons_of_mem a hs)
    rw [List.foldl_cons]
    apply ih hS'
    unfold dedupStep
    cases hlast : acc.getLast? with
    | none =>
      constructor
      · intro s hs
        rcases List.mem_singleton.mp hs with rfl
        exact ha
      · exact List.chain'_singleton a
    | some last =>
      have hlastmem : last ∈ acc := List.mem_of_mem_getLast? (by rw [hlast]; rfl)
      have hlastP := hacc.mem last hlastmem
      dsimp only
      by_cases hov : a.start < last.stop
      · rw [if_pos hov]
        by_cases hlen : 8/100 ≤ a.stop - last.stop
        · rw [if_pos hlen]
          constructor
          · intro s hs
            rcases List.mem_append.mp hs with hs | hs
            · exact hacc.mem s hs
            · rcases List.mem_singleton.mp hs with rfl
              refine ⟨ha.1, ha.2.1, ?_, ha.2.2.2.1, hlen⟩
              show 0 ≤ last.stop
              have := hlastP.2.2.2.2
              have := hlastP.2.2.1
              linarith
          · rw [List.chain'_append]
            refine ⟨hacc.chain, List.chain'_singleton _, ?_⟩
            intro x hx y hy
            rw [hlast] at hx
            have hx' : last = x := by simpa using hx
            have hy' : ({ a with start := last.stop } : CaptionSegment) = y := by
              simpa using hy
            rw [← hx', ← hy']
        · rw [if_neg hlen]
          exact hacc
      · rw [if_neg hov]
        push_neg at hov
        constructor
        · intro s hs
          rcases List.mem_append.mp hs with hs | hs
          · exact hacc.mem s hs
          · rcases List.mem_singleton.mp hs with rfl
            exact ha
        · rw [List.chain'_append]
          refine ⟨hacc.chain, List.chain'_singleton _, ?_⟩
          intro x hx y hy
          rw [hlast] at hx
          have hx' : last = x := by simpa using hx
          have hy' : a = y := by simpa using hy
          rw [← hx', ← hy']
          exact hov

/-- The output of `normalizeCaptionSegments` satisfies the
normalized-segment invariant. -/
theorem normalize_normalized (segs : List CaptionSegment) (d : ℚ) :
    NormalizedSegs d (normalizeCaptionSegments segs d) := by
  unfold normalizeCaptionSegments
  apply dedupFold_normalized d _ ?_ [] ⟨by simp, List.chain'_nil⟩
  intro s hs
  rw [List.mem_insertionSort, List.mem_filterMap] at hs
  obtain ⟨x, _, hmap⟩ := hs
  exact safeSegment_mem_prop d x s hmap

/-- The de-overlap fold is the identity on already-disjoint segment
lists. -/
theorem dedupFold_id_aux (l : List CaptionSegment) :
    ∀ (acc : List CaptionSegment) (t : CaptionSegment),
      acc.getLast? = some t →
      (t :: l).Chain' (fun a b => a.stop ≤ b.start) →
      l.foldl dedupStep acc = acc ++ l := by
  induction l with
  | nil => intro acc t _ _; simp
  | cons x xs ih =>
    intro acc t hlast hchain
    obtain ⟨hrel, hchain'⟩ := List.chain'_cons.mp hchain
    rw [List.foldl_cons]
    have hstep : dedupStep acc x = acc ++ [x] := by
      unfold dedupStep
      rw [hlast]
      dsimp only
      rw [if_neg (not_lt.mpr hrel)]
    rw [hstep, ih (acc ++ [x]) x (List.getLast?_concat acc) hchain']
    simp

/-- The de-overlap fold started at `[]` is the identity on
already-disjoint segment lists. -/
theorem dedupFold_id (l : List CaptionSegment)
    (hchain : l.Chain' (fun a b => a.stop ≤ b.start)) :
    l.foldl dedupStep [] = l := by
  cases l with
  | nil => rfl
  | cons x xs =>
    rw [List.foldl_cons]
    have hstep : dedupStep [] x = [x] := rfl
    rw [hstep, dedupFold_id_aux xs [x] x rfl hchain]
    rfl

/-- Chained disjointness plus per-segment positivity gives global
pairwise disjointness. -/
theorem chain_nonoverlap_pairwise (l : List CaptionSegment)
    (hP : ∀ s ∈ l, s.start ≤ s.stop)
    (hchain : l.Chain' (fun a b => a.stop ≤ b.start)) :
    l.Pairwise (fun a b => a.stop ≤ b.start) := by
  induction l with
  | nil => exact List.Pairwise.nil
  | cons a t ih =>
    rw [List.pairwise_cons]
    constructor
    · intro b hb
      cases t with
      | nil => simp at hb
      | cons c u =>
        obtain ⟨hac, hchain'⟩ := List.chain'_cons.mp hchain
        rcases List.mem_cons.mp hb with rfl | hb'
        · exact hac
        · have hpt := ih (fun s hs => hP s (List.mem_cons_of_mem a hs)) hchain'
          have hcb := (List.pairwise_cons.mp hpt).1 b hb'
          have hc := hP c (by simp)
          linarith
    · exact ih (fun s hs => hP s (List.mem_cons_of_mem a hs)) hchain.tail

/-- `normalizeCaptionSegments` is the identity on lists satisfying the
normalized-segment invariant. -/
theorem normalize_of_normalized (l : List CaptionSegment) (d : ℚ)
    (h : NormalizedSegs d l) : normalizeCaptionSegments l d = l := by
  unfold normalizeCaptionSegments
  have hsafe : l.filterMap (safeSegment d) = l := by
    apply filterMap_safeSegment_id
    intro s hs
    obtain ⟨h1, h2, h3, h4, h5⟩ := h.mem s hs
    exact safeSegment_id d s h1 h2 h3 h4 h5
  rw [hsafe]
  have hsorted : List.Sorted segStartLE l := by
    have hpw := chain_nonoverlap_pairwise l
      (fun s hs => by have := (h.mem s hs).2.2.2.2; linarith) h.chain
    apply List.Pairwise.imp_of_mem ?_ hpw
    intro a b ha _ hr
    have haP := h.mem a ha
    show a.start ≤ b.start
    have := haP.2.2.2.2
    linarith
  rw [List.Sorted.insertionSort_eq hsorted]
  exact dedupFold_id l h.chain

/-- C9: caption-segment normalization is idempotent — for every segment
list and clip duration, a second `normalizeCaptionSegments` pass over its
own output drops no segment and shifts no boundary. -/
theorem normalizeCaptionSegments_idem (segs : List CaptionSegment) (d : ℚ) :
    normalizeCaptionSegments (normalizeCaptionSegments segs d) d =
      normalizeCaptionSegments segs d :=
  normalize_of_normalized _ d (normalize_normalized segs d)

/-- Correctness of the greedy peak-selection loop: starting from a
well-separated accumulator below the quota, the result (i) draws only
from the accumulator and candidates, (ii) is pairwise at least
`minPeakDistance` apart, (iii) never exceeds `numPeaks`, (iv) extends the
accumulator, and (v) any skipped candidate was skipped because the quota
filled or it was within `minPeakDistance` of a selected peak. -/
theorem greedyPick_spec (mpd : ℚ) (numPeaks : ℕ) :
    ∀ (cand acc : List AudioPeak),
      acc.Pairwise (fun a b => mpd ≤ |a.time - b.time|) →
      acc.length < numPeaks →
      (∀ p ∈ greedyPick mpd numPeaks cand acc, p ∈ acc ∨ p ∈ cand) ∧
      (greedyPick mpd numPeaks cand acc).Pairwise
        (fun a b => mpd ≤ |a.time - b.time|) ∧
      (greedyPick mpd numPeaks cand acc).length ≤ numPeaks ∧
      (∀ p ∈ acc, p ∈ greedyPick mpd numPeaks cand acc) ∧
      (∀ c ∈ cand, c ∉ greedyPick mpd numPeaks cand acc →
        (greedyPick mpd numPeaks cand acc).length = numPeaks ∨
        ∃ p ∈ greedyPick mpd numPeaks cand acc, |p.time - c.time| < mpd) := by
  intro cand
  induction cand with
  | nil =>
    intro acc hpw hlen
    refine ⟨fun p hp => Or.inl hp, hpw, le_of_lt hlen, fun p hp => hp, ?_⟩
    intro c hc
    simp at hc
  | cons p rest ih =>
    intro acc hpw hlen
    rw [greedyPick]
    by_cases hclose : acc.any (fun q => decide (|q.time - p.time| < mpd))
    · rw [if_pos hclose]
      obtain ⟨hmem, hpw', hle, hext, hcomp⟩ := ih acc hpw hlen
      refine ⟨?_, hpw', hle, hext, ?_⟩
      · intro q hq
        rcases hmem q hq with h | h
        · exact Or.inl h
        · exact Or.inr (List.mem_cons_of_mem p h)
      · intro c hc hnot
        rcases List.mem_cons.mp hc with rfl | hc'
        · right
          rw [List.any_eq_true] at hclose
          obtain ⟨q, hq, hqd⟩ := hclose
          rw [decide_eq_true_eq] at hqd
          exact ⟨q, hext q hq, hqd⟩
        · exact hcomp c hc' hnot
    · rw [if_neg hclose]
      rw [Bool.not_eq_true, List.any_eq_false] at hclose
      have hpw'' : (acc ++ [p]).Pairwise (fun a b => mpd ≤ |a.time - b.time|) := by
        rw [List.pairwise_append]
        refine ⟨hpw, List.pairwise_singleton _ _, ?_⟩
        intro x hx y hy
        rcases List.mem_singleton.mp hy with rfl
        have := hclose x hx
        rw [Bool.not_eq_true, decide_eq_false_iff_not, not_lt] at this
        exact this
      by_cases hquota : numPeaks ≤ (acc ++ [p]).length
      · rw [if_pos hquota]
        have hlenq : (acc ++ [p]).length = numPeaks := by
          rw [List.length_append, List.length_singleton] at hquota ⊢
          omega
        refine ⟨?_, hpw'', le_of_eq hlenq, ?_, ?_⟩
        · intro q hq
          rcases List.mem_append.mp hq with h | h
          · exact Or.inl h
          · rcases List.mem_singleton.mp h with rfl
            exact Or.inr (List.mem_cons_self _ _)
        · intro q hq
          exact List.mem_append.mpr (Or.inl hq)
        · intro c hc hnot
          exact Or.inl hlenq
      · rw [if_neg hquota]
        rw [not_le] at hquota
        obtain ⟨hmem, hpw', hle, hext, hcomp⟩ := ih (acc ++ [p]) hpw'' hquota
        have hpmem : p ∈ greedyPick mpd numPeaks rest (acc ++ [p]) :=
          hext p (List.mem_append.mpr (Or.inr (List.mem_singleton.mpr rfl)))
        refine ⟨?_, hpw', hle, ?_, ?_⟩
        · intro q hq
          rcases hmem q hq with h | h
          · rcases List.mem_append.mp h with h' | h'
            · exact Or.inl h'
            · rcases List.mem_singleton.mp h' with rfl
              exact Or.inr (List.mem_cons_self _ _)
          · exact Or.inr (List.mem_cons_of_mem p h)
        · intro q hq
          exact hext q (List.mem_append.mpr (Or.inl hq))
        · intro c hc hnot
          rcases List.mem_cons.mp hc with rfl | hc'
          · exact absurd hpmem hnot
          · exact hcomp c hc' hnot

/-- C7 (amended): the Peak Detector returns only windows that are strict
local maxima above the 0.3 threshold; the returned peaks are pairwise AT
LEAST `minPeakDistance` apart (a candidate exactly `minPeakDistance`
away is accepted, contrary to the claim's strict “farther than”); for
`numPeaks ≥ 1` at most `numPeaks` are returned; the output is sorted
ascending by time; and a candidate is left out only because the quota
filled or it lies within `minPeakDistance` of a selected peak. -/
theorem analyzeAudioPeaks_spec (E : List WindowEnergy) (mpd : ℚ)
    (numPeaks : ℕ) (res : List AudioPeak) (h1 : 1 ≤ numPeaks)
    (hres : analyzeAudioPeaks E mpd numPeaks = res) :
    (∀ p ∈ res, p ∈ localPeaks (normalizeEnergies E)) ∧
    res.Pairwise (fun a b => mpd ≤ |a.time - b.time|) ∧
    res.length ≤ numPeaks ∧
    res.Pairwise peakTimeLE ∧
    (∀ c ∈ localPeaks (normalizeEnergies E), c ∉ res →
      res.length = numPeaks ∨ ∃ p ∈ res, |p.time - c.time| < mpd) := by
  subst hres
  unfold analyzeAudioPeaks
  set cand := localPeaks (normalizeEnergies E) with hcand
  set sorted := cand.insertionSort peakIntensityGE with hsorted
  obtain ⟨hmem, hpw, hle, _, hcomp⟩ :=
    greedyPick_spec mpd numPeaks sorted [] List.Pairwise.nil
      (by simpa using h1)
  set g := greedyPick mpd numPeaks sorted [] with hg
  constructor
  · intro p hp
    rw [List.mem_insertionSort] at hp
    rcases hmem p hp with h | h
    · simp at h
    · rw [hsorted, List.mem_insertionSort] at h
      exact h
  refine ⟨?_, ?_, ?_, ?_⟩
  · have hperm : List.Perm (g.insertionSort peakTimeLE) g :=
      List.perm_insertionSort peakTimeLE g
    apply (List.Perm.pairwise_iff ?_ hperm).mpr hpw
    intro a b hab
    rw [abs_sub_comm]
    exact hab
  · rw [List.length_insertionSort]
    exact hle
  · exact List.sorted_insertionSort peakTimeLE g
  · intro c hc hnot
    have hc' : c ∈ sorted := by
      rw [hsorted, List.mem_insertionSort]
      exact hc
    have hnot' : c ∉ g := fun hcg =>
      hnot ((List.mem_insertionSort peakTimeLE).mpr hcg)
    rcases hcomp c hc' hnot' with h | ⟨q, hq, hqd⟩
    · left
      rw [List.length_insertionSort]
      exact h
    · right
      exact ⟨q, (List.mem_insertionSort peakTimeLE).mpr hq, hqd⟩

/-- C7 witness: the amended peak-detector theorem instantiated at the
five-window energy profile of the counterexample with `numPeaks = 1`. -/
theorem analyzeAudioPeaks_spec_witness :
    (1 ≤ 1 ∧
      analyzeAudioPeaks [⟨1/32, 0⟩, ⟨3/32, 1⟩, ⟨5/32, 0⟩, ⟨7/32, 3/4⟩, ⟨9/32, 0⟩]
        (1/8) 1 = [⟨3/32, 1⟩]) ∧
    ((∀ p ∈ [(⟨3/32, 1⟩ : AudioPeak)],
        p ∈ localPeaks (normalizeEnergies
          [⟨1/32, 0⟩, ⟨3/32, 1⟩, ⟨5/32, 0⟩, ⟨7/32, 3/4⟩, ⟨9/32, 0⟩])) ∧
      List.Pairwise (fun a b => 1/8 ≤ |a.time - b.time|) [(⟨3/32, 1⟩ : AudioPeak)] ∧
      [(⟨3/32, 1⟩ : AudioPeak)].length ≤ 1 ∧
      List.Pairwise peakTimeLE [(⟨3/32, 1⟩ : AudioPeak)] ∧
      (∀ c ∈ localPeaks (normalizeEnergies
          [⟨1/32, 0⟩, ⟨3/32, 1⟩, ⟨5/32, 0⟩, ⟨7/32, 3/4⟩, ⟨9/32, 0⟩]),
        c ∉ [(⟨3/32, 1⟩ : AudioPeak)] →
        [(⟨3/32, 1⟩ : AudioPeak)].length = 1 ∨
        ∃ p ∈ [(⟨3/32, 1⟩ : AudioPeak)], |p.time - c.time| < 1/8)) := by
  have heval : analyzeAudioPeaks
      [⟨1/32, 0⟩, ⟨3/32, 1⟩, ⟨5/32, 0⟩, ⟨7/32, 3/4⟩, ⟨9/32, 0⟩] (1/8) 1 =
      [⟨3/32, 1⟩] := by
    norm_num [analyzeAudioPeaks, normalizeEnergies, localPeaks, greedyPick,
      List.filterMap_cons, List.insertionSort, List.orderedInsert,
      peakIntensityGE, peakTimeLE, abs]
  exact ⟨⟨le_refl 1, heval⟩,
    analyzeAudioPeaks_spec _ (1/8) 1 _ (le_refl 1) heval⟩

/-- C7 counterexample: with window energies peaking at t=3/32 and t=7/32
(distance exactly `minPeakDistance = 1/8`), BOTH candidates are accepted:
the code's `tooClose` test uses strict `<`, so a candidate exactly
`minPeakDistance` away is not "farther than `minPeakDistance`" yet is
selected, refuting the claim's strict separation. -/
theorem analyzeAudioPeaks_boundary_accept :
    analyzeAudioPeaks [⟨1/32, 0⟩, ⟨3/32, 1⟩, ⟨5/32, 0⟩, ⟨7/32, 3/4⟩, ⟨9/32, 0⟩]
      (1/8) 5 = [⟨3/32, 1⟩, ⟨7/32, 3/4⟩] ∧
    |(7/32 : ℚ) - 3/32| = 1/8 ∧ ¬ (1/8 : ℚ) < |(7/32 : ℚ) - 3/32| := by
  refine ⟨?_, ?_, ?_⟩
  · norm_num [analyzeAudioPeaks, normalizeEnergies, localPeaks, greedyPick,
      List.filterMap_cons, List.insertionSort, List.orderedInsert,
      peakIntensityGE, peakTimeLE, abs]
  · rw [abs_of_nonneg (by norm_num)]
    norm_num
  · rw [abs_of_nonneg (by norm_num)]
    norm_num

/-- Unfolding `breakFlagsFrom` over a cons cell. -/
theorem breakFlagsFrom_cons (maxW : ℕ) (maxD : ℚ) (ss : ℚ) (off : ℕ)
    (w : WordTimestamp) (rest : List WordTimestamp) :
    breakFlagsFrom maxW maxD ss off (w :: rest) =
      segBreakCond maxW maxD ss (off + 1) w rest.head? ::
        breakFlagsFrom maxW maxD ss (off + 1) rest := by
  unfold breakFlagsFrom
  rw [List.length_cons, List.range_succ_eq_map, List.map_cons, List.map_map]
  congr 1
  · rw [List.getElem?_cons_zero, List.getElem?_cons_succ, List.head?_eq_getElem?]
  · apply List.map_congr_left
    intro i _
    simp only [Function.comp_apply, Nat.succ_eq_add_one, List.getElem?_cons_succ]
    cases hx : rest[i]? with
    | none => rfl
    | some w' =>
      have e : off + (i + 1) + 1 = off + 1 + i + 1 := by omega
      rw [e]

/-- The flag list of a non-empty word list always contains a true flag
(the last word always closes its segment). -/
theorem breakFlagsFrom_exists_true (maxW : ℕ) (maxD : ℚ) (ss : ℚ) :
    ∀ (w : WordTimestamp) (rest : List WordTimestamp) (off : ℕ),
      ∃ b ∈ breakFlagsFrom maxW maxD ss off (w :: rest), b = true := by
  intro w rest
  induction rest generalizing w with
  | nil =>
    intro off
    refine ⟨segBreakCond maxW maxD ss (off + 1) w [].head?, ?_, ?_⟩
    · rw [breakFlagsFrom_cons]
      exact List.mem_cons_self _ _
    · simp [segBreakCond]
  | cons r rs ih =>
    intro off
    obtain ⟨b, hb, hbt⟩ := ih r (off + 1)
    refine ⟨b, ?_, hbt⟩
    rw [breakFlagsFrom_cons]
    exact List.mem_cons_of_mem _ hb

/-- The flag list has one flag per word. -/
theorem breakFlagsFrom_length (maxW : ℕ) (maxD : ℚ) (ss : ℚ) (off : ℕ)
    (words : List WordTimestamp) :
    (breakFlagsFrom maxW maxD ss off words).length = words.length := by
  unfold breakFlagsFrom
  rw [List.length_map, List.length_range]

/-- One `segLoop` step on a word that closes the segment. -/
theorem segLoop_cons_break (maxW : ℕ) (maxD : ℚ) (w : WordTimestamp)
    (rest : List WordTimestamp) (segStart : ℚ) (cur : List WordTimestamp)
    (segs : List CaptionSegment)
    (h : segBreakCond maxW maxD segStart (cur ++ [w]).length w rest.head? = true) :
    segLoop maxW maxD (w :: rest) segStart cur segs =
      segLoop maxW maxD rest
        (match rest.head? with
         | some nw => nw.start
         | none => segStart) []
        (segs ++ emitSegment (cur ++ [w]) segStart w.stop) := by
  rw [segLoop, if_pos h]
  unfold emitSegment
  dsimp only
  by_cases ht : trimString (String.intercalate " " ((cur ++ [w]).map (·.word))) = ""
  · rw [if_pos ht, if_pos ht]
    simp
  · rw [if_neg ht, if_neg ht]

/-- One `segLoop` step on a word that does not close the segment. -/
theorem segLoop_cons_skip (maxW : ℕ) (maxD : ℚ) (w : WordTimestamp)
    (rest : List WordTimestamp) (segStart : ℚ) (cur : List WordTimestamp)
    (segs : List CaptionSegment)
    (h : segBreakCond maxW maxD segStart (cur ++ [w]).length w rest.head? = false) :
    segLoop maxW maxD (w :: rest) segStart cur segs =
      segLoop maxW maxD rest segStart (cur ++ [w]) segs := by
  rw [segLoop]
  rw [if_neg ?_]
  rw [h]
  exact Bool.false_ne_true

/-- Running `segLoop` up to and including the first break index `k`
(relative to the words already accumulated in `cur`) closes exactly one
segment over `cur ++ take (k+1)` and restarts after it. -/
theorem segLoop_chunk (maxW : ℕ) (maxD : ℚ) :
    ∀ (ws : List WordTimestamp) (segStart : ℚ) (cur : List WordTimestamp)
      (segs : List CaptionSegment) (k : ℕ),
      k = (breakFlagsFrom maxW maxD segStart cur.length ws).findIdx (fun b => b) →
      k < ws.length →
      segLoop maxW maxD ws segStart cur segs =
        segLoop maxW maxD (ws.drop (k + 1))
          (match (ws.drop (k + 1)).head? with
           | some nw => nw.start
           | none => segStart) []
          (segs ++ emitSegment (cur ++ ws.take (k + 1)) segStart
            (((ws[k]?).map (·.stop)).getD 0)) := by
  intro ws
  induction ws with
  | nil =>
    intro segStart cur segs k _ hklt
    simp at hklt
  | cons w rest ih =>
    intro segStart cur segs k hk hklt
    rw [breakFlagsFrom_cons, List.findIdx_cons] at hk
    by_cases hc : segBreakCond maxW maxD segStart (cur.length + 1) w rest.head? = true
    · rw [hc] at hk
      simp only [cond_true] at hk
      subst hk
      have hc' : segBreakCond maxW maxD segStart (cur ++ [w]).length w
          rest.head? = true := by
        rw [List.length_append, List.length_singleton]
        exact hc
      rw [segLoop_cons_break maxW maxD w rest segStart cur segs hc']
      simp only [List.drop_succ_cons, List.drop_zero, List.take_succ_cons,
        List.take_zero, List.getElem?_cons_zero, Option.map_some', Option.getD_some]
    · rw [Bool.not_eq_true] at hc
      rw [hc] at hk
      simp only [cond_false] at hk
      have hc' : segBreakCond maxW maxD segStart (cur ++ [w]).length w
          rest.head? = false := by
        rw [List.length_append, List.length_singleton]
        exact hc
      rw [segLoop_cons_skip maxW maxD w rest segStart cur segs hc']
      set k' := (breakFlagsFrom maxW maxD segStart (cur.length + 1) rest).findIdx
        (fun b => b) with hk'
      have hk'lt : k' < rest.length := by
        rw [List.length_cons] at hklt
        omega
      have hcur : (cur ++ [w]).length = cur.length + 1 := by
        rw [List.length_append, List.length_singleton]
      have := ih segStart (cur ++ [w]) segs k' (by rw [hcur, hk']) hk'lt
      rw [this]
      subst hk
      simp only [List.drop_succ_cons, List.take_succ_cons, List.getElem?_cons_succ,
        List.append_assoc, List.cons_append, List.nil_append]

/-- `segLoop` started on an empty chunk computes exactly the
specification-level segmentation, appended to the accumulated output. -/
theorem segLoop_eq_spec (maxW : ℕ) (maxD : ℚ) :
    ∀ (n : ℕ) (words : List WordTimestamp), words.length ≤ n →
      ∀ (segStart : ℚ) (segs : List CaptionSegment),
        segLoop maxW maxD words segStart [] segs =
          segs ++ specSegments maxW maxD words segStart := by
  intro n
  induction n with
  | zero =>
    intro words hlen segStart segs
    have : words = [] := List.eq_nil_of_length_eq_zero (by omega)
    subst this
    simp [segLoop, specSegments]
  | succ n ihn =>
    intro words hlen segStart segs
    cases words with
    | nil => simp [segLoop, specSegments]
    | cons w rest =>
      have hex := breakFlagsFrom_exists_true maxW maxD segStart w rest 0
      set k := (breakFlagsFrom maxW maxD segStart 0 (w :: rest)).findIdx
        (fun b => b) with hkdef
      have hklt : k < (w :: rest).length := by
        rw [hkdef, ← breakFlagsFrom_length maxW maxD segStart 0 (w :: rest)]
        exact List.findIdx_lt_length_of_exists hex
      have hstep := segLoop_chunk maxW maxD (w :: rest) segStart [] segs k
        (by rw [hkdef]; rfl) hklt
      rw [hstep]
      have hdrop : ((w :: rest).drop (k + 1)).length ≤ n := by
        rw [List.length_drop]
        rw [List.length_cons] at hlen ⊢
        omega
      rw [ihn ((w :: rest).drop (k + 1)) hdrop _ _]
      conv_rhs => rw [specSegments]
      simp only [List.nil_append, List.append_assoc]

/-- C8: the Speech Segmenter closes segments exactly at the first index
where any break condition holds (max words, accumulated duration, >0.5 s
pause, sentence punctuation, or final word): the source loop
`segmentTranscription` coincides with its specification-level
restatement on every input; in particular a word stream with a 0.6 s gap
after word 3 breaks after word 3, and 6 gapless words break exactly at
word 6. -/
theorem segmentTranscription_matches_spec :
    (∀ (words : List WordTimestamp) (maxWords : ℕ) (maxDuration : ℚ),
      segmentTranscription words maxWords maxDuration =
        specSegmentTranscription words maxWords maxDuration) ∧
    segmentTranscription
      [⟨"a", 0, 2/5, 1⟩, ⟨"b", 2/5, 4/5, 1⟩, ⟨"c", 4/5, 6/5, 1⟩,
       ⟨"d", 9/5, 2, 1⟩, ⟨"e", 2, 21/10, 1⟩] 6 3 =
      [⟨"a b c", 0, 6/5⟩, ⟨"d e", 9/5, 21/10⟩] ∧
    segmentTranscription
      [⟨"a", 0, 2/5, 1⟩, ⟨"b", 2/5, 4/5, 1⟩, ⟨"c", 4/5, 6/5, 1⟩,
       ⟨"d", 6/5, 8/5, 1⟩, ⟨"e", 8/5, 2, 1⟩, ⟨"f", 2, 12/5, 1⟩,
       ⟨"g", 12/5, 14/5, 1⟩] 6 3 =
      [⟨"a b c d e f", 0, 12/5⟩, ⟨"g", 12/5, 14/5⟩] := by
  refine ⟨?_, ?_, ?_⟩
  · intro words maxWords maxDuration
    cases words with
    | nil => rfl
    | cons w rest =>
      unfold segmentTranscription specSegmentTranscription
      exact segLoop_eq_spec maxWords maxDuration (w :: rest).length (w :: rest)
        (le_refl _) w.start []
  · norm_num +decide [segmentTranscription, segLoop, segBreakCond,
      endsWithSentencePunct]
  · norm_num +decide [segmentTranscription, segLoop, segBreakCond,
      endsWithSentencePunct]

/-- If the terminal fallback (with captions not required) fails, the last
attempted encode was the final plain no-caption encode and its exec
failed. -/
theorem finalStage_error_char (env : RenderEnv) (k : ℕ) (att : List ExecKind)
    (hk : k = att.length)
    (herr : (finalStage false env k att).result = .error ()) :
    (finalStage false env k att).attempts.getLast? = some .finalPlain ∧
    env.exec ((finalStage false env k att).attempts.length - 1) = false := by
  unfold finalStage at herr ⊢
  rw [if_neg Bool.false_ne_true] at herr ⊢
  by_cases hexec : env.exec k
  · rw [if_pos hexec] at herr
    simp at herr
  · rw [if_neg hexec] at herr ⊢
    rw [Bool.not_eq_true] at hexec
    refine ⟨List.getLast?_concat att, ?_⟩
    show env.exec ((att ++ [ExecKind.finalPlain]).length - 1) = false
    rw [List.length_append, List.length_singleton]
    have e : att.length + 1 - 1 = k := by omega
    rw [e]
    exact hexec

/-- If strategy C (with captions not required) ends in the thrown error,
the last attempted encode was the final plain no-caption encode and its
exec failed. -/
theorem stratCStage_error_char (env : RenderEnv) (hadAny : Bool)
    (overlays : List OverlayItem) (k : ℕ) (att : List ExecKind)
    (hk : k = att.length)
    (herr : (stratCStage false env hadAny overlays k att).result = .error ()) :
    (stratCStage false env hadAny overlays k att).attempts.getLast? =
      some .finalPlain ∧
    env.exec ((stratCStage false env hadAny overlays k att).attempts.length - 1) =
      false := by
  unfold stratCStage at herr ⊢
  by_cases hov : overlays.isEmpty
  · rw [if_pos hov] at herr ⊢
    by_cases hexec : env.exec k
    · rw [if_pos hexec] at herr
      simp at herr
    · rw [if_neg hexec] at herr ⊢
      exact finalStage_error_char env (k + 1) (att ++ [.stratCPlain])
        (by rw [List.length_append, List.length_singleton]; omega) herr
  · rw [if_neg hov] at herr ⊢
    by_cases hcan : env.overlayOk
    · rw [hcan] at herr ⊢
      simp only [Bool.not_true, Bool.false_eq_true, if_false] at herr ⊢
      by_cases hexec : env.exec k
      · rw [if_pos hexec] at herr
        simp at herr
      · rw [if_neg hexec] at herr ⊢
        exact finalStage_error_char env (k + 1) (att ++ [.stratCImg])
          (by rw [List.length_append, List.length_singleton]; omega) herr
    · rw [Bool.not_eq_true] at hcan
      rw [hcan] at herr ⊢
      simp only [Bool.not_false, if_true] at herr ⊢
      exact finalStage_error_char env k att hk herr

/-- If a drawtext strategy stage (with captions not required) ends in the
thrown error, the last attempted encode was the final plain no-caption
encode and its exec failed — provided its continuation has that
property. -/
theorem drawStage_error_char (tag : ExecKind) (strat : CaptionStrategy)
    (next : ℕ → List ExecKind → RenderTrace) (env : RenderEnv) (hadAny : Bool)
    (draw : List DrawtextFilter) (k : ℕ) (att : List ExecKind)
    (hk : k = att.length)
    (hnext : ∀ (k' : ℕ) (att' : List ExecKind), k' = att'.length →
      (next k' att').result = .error () →
      (next k' att').attempts.getLast? = some .finalPlain ∧
      env.exec ((next k' att').attempts.length - 1) = false)
    (herr : (drawStage tag strat next false env hadAny draw k att).result =
      .error ()) :
    (drawStage tag strat next false env hadAny draw k att).attempts.getLast? =
      some .finalPlain ∧
    env.exec
      ((drawStage tag strat next false env hadAny draw k att).attempts.length - 1) =
      false := by
  unfold drawStage at herr ⊢
  rw [Bool.false_and] at herr ⊢
  simp only [Bool.false_eq_true, if_false] at herr ⊢
  by_cases hexec : env.exec k
  · rw [if_pos hexec] at herr
    simp at herr
  · rw [if_neg hexec] at herr ⊢
    exact hnext (k + 1) (att ++ [tag])
      (by rw [List.length_append, List.length_singleton]; omega) herr

/-- C1 counterexample: the Caption Compositor CAN throw with
`captionsRequired = false` — when every encode invocation fails (here an
environment whose execs all fail and whose font staging fails), the
compositor ends in the thrown error instead of returning a result. -/
theorem renderCaptionsWithFallback_can_throw :
    (renderCaptionsWithFallback false ⟨10, .bottom, "#FFFFFF", none, none, []⟩ 10
      ⟨false, false, fun _ => false⟩).result = .error () :=
  rfl

/-- C1 (amended): with `captionsRequired = false` the compositor raises a
failure only after one final plain no-caption encode has been attempted
and failed: whenever the result is the thrown error, the last attempted
encode is the terminal plain encode and its exec returned a non-zero
code. (Whenever that final encode succeeds, the result is
`no_captions / hadAnyCaptions = false`.) -/
theorem renderCaptionsWithFallback_error_only_after_final
    (captions : CaptionRenderInput) (duration : ℚ) (env : RenderEnv)
    (herr : (renderCaptionsWithFallback false captions duration env).result =
      .error ()) :
    (renderCaptionsWithFallback false captions duration env).attempts.getLast? =
      some .finalPlain ∧
    env.exec
      ((renderCaptionsWithFallback false captions duration env).attempts.length
        - 1) = false := by
  unfold renderCaptionsWithFallback at herr ⊢
  by_cases hfont : env.fontLoaded
  · rw [hfont] at herr ⊢
    simp only [if_true] at herr ⊢
    apply drawStage_error_char _ _ _ env _ _ 0 [] rfl ?_ herr
    intro k' att' hk' herr'
    apply drawStage_error_char _ _ _ env _ _ k' att' hk' ?_ herr'
    intro k'' att'' hk'' herr''
    exact stratCStage_error_char env _ _ k'' att'' hk'' herr''
  · rw [Bool.not_eq_true] at hfont
    rw [hfont] at herr ⊢
    simp only [Bool.false_eq_true, if_false] at herr ⊢
    exact stratCStage_error_char env _ _ 0 [] rfl herr

/-- C1 witness: the amended theorem instantiated at the all-failing
environment of the counterexample. -/
theorem renderCaptionsWithFallback_error_only_after_final_witness :
    ((renderCaptionsWithFallback false ⟨10, .bottom, "#FFFFFF", none, none, []⟩ 10
        ⟨false, false, fun _ => false⟩).result = .error ()) ∧
    ((renderCaptionsWithFallback false ⟨10, .bottom, "#FFFFFF", none, none, []⟩ 10
        ⟨false, false, fun _ => false⟩).attempts.getLast? = some .finalPlain ∧
      (⟨false, false, fun _ => false⟩ : RenderEnv).exec
        ((renderCaptionsWithFallback false
          ⟨10, .bottom, "#FFFFFF", none, none, []⟩ 10
          ⟨false, false, fun _ => false⟩).attempts.length - 1) = false) :=
  ⟨rfl, renderCaptionsWithFallback_error_only_after_final
    ⟨10, .bottom, "#FFFFFF", none, none, []⟩ 10 ⟨false, false, fun _ => false⟩ rfl⟩

/-- Chunking then flattening restores the original segment list. -/
theorem chunkList_join (g : ℕ) :
    ∀ (n : ℕ) (l : List CaptionSegment), l.length ≤ n →
      (chunkList g l).flatten = l := by
  intro n
  induction n with
  | zero =>
    intro l hlen
    have : l = [] := List.eq_nil_of_length_eq_zero (by omega)
    subst this
    rw [chunkList]
    rfl
  | succ n ih =>
    intro l hlen
    cases l with
    | nil =>
      rw [chunkList]
      rfl
    | cons a l' =>
      rw [chunkList, List.flatten_cons]
      rw [ih (l'.drop (g - 1)) (by rw [List.length_drop]; rw [List.length_cons] at hlen; omega)]
      rw [List.cons_append, List.take_append_drop]

/-- Every chunk produced by `chunkList` is non-empty. -/
theorem chunkList_ne_nil (g : ℕ) :
    ∀ (n : ℕ) (l : List CaptionSegment), l.length ≤ n →
      ∀ c ∈ chunkList g l, c ≠ [] := by
  intro n
  induction n with
  | zero =>
    intro l hlen c hc
    have : l = [] := List.eq_nil_of_length_eq_zero (by omega)
    subst this
    simp [chunkList] at hc
  | succ n ih =>
    intro l hlen c hc
    cases l with
    | nil => simp [chunkList] at hc
    | cons a l' =>
      rw [chunkList] at hc
      rcases List.mem_cons.mp hc with rfl | hc'
      · simp
      · exact ih (l'.drop (g - 1))
          (by rw [List.length_drop]; rw [List.length_cons] at hlen; omega) c hc'

/-- `chunkList` produces at most `m` chunks when the list fits in `m`
chunks of size `g`. -/
theorem chunkList_length_le (g : ℕ) (hg : 1 ≤ g) :
    ∀ (n : ℕ) (l : List CaptionSegment) (m : ℕ), l.length ≤ n →
      l.length ≤ g * m → (chunkList g l).length ≤ m := by
  intro n
  induction n with
  | zero =>
    intro l m hlen _
    have : l = [] := List.eq_nil_of_length_eq_zero (by omega)
    subst this
    simp [chunkList]
  | succ n ih =>
    intro l m hlen hfit
    cases l with
    | nil => simp [chunkList]
    | cons a l' =>
      rw [chunkList, List.length_cons]
      rw [List.length_cons] at hlen hfit
      have hm : 1 ≤ m := by
        by_contra hm
        push_neg at hm
        interval_cases m
        simp at hfit
      have e : g * m = g * (m - 1) + g := by
        calc g * m = g * ((m - 1) + 1) := by rw [Nat.sub_add_cancel hm]
          _ = g * (m - 1) + g := by rw [Nat.mul_add, Nat.mul_one]
      have hdrop : (l'.drop (g - 1)).length ≤ g * (m - 1) := by
        rw [List.length_drop]
        omega
      have := ih (l'.drop (g - 1)) (m - 1)
        (by rw [List.length_drop]; omega) hdrop
      omega

/-- The merged overlay-segment list never exceeds the budget. -/
theorem mergeSegmentsForOverlay_length (segs : List CaptionSegment)
    (maxCount : ℕ) (h : 1 ≤ maxCount) :
    (mergeSegmentsForOverlay segs maxCount).length ≤ maxCount := by
  unfold mergeSegmentsForOverlay
  by_cases hle : segs.length ≤ maxCount
  · rw [if_pos hle]
    exact hle
  · rw [if_neg hle]
    rw [List.length_map]
    push_neg at hle
    set g := (segs.length + maxCount - 1) / maxCount with hgdef
    have hg1 : 1 ≤ g := by
      rw [hgdef]
      rw [Nat.le_div_iff_mul_le (by omega)]
      omega
    apply chunkList_length_le g hg1 segs.length segs maxCount (le_refl _)
    have hdm := Nat.div_add_mod (segs.length + maxCount - 1) maxCount
    rw [← hgdef] at hdm
    have hmod : (segs.length + maxCount - 1) % maxCount < maxCount :=
      Nat.mod_lt _ (by omega)
    rw [Nat.mul_comm g maxCount]
    omega

/-- The merged overlay-segment list is a merge of adjacent groups in
order: there is a partition of the input into consecutive non-empty
groups whose texts are concatenated and whose windows span from each
group's first start to its last end. -/
theorem mergeSegmentsForOverlay_groups (segs : List CaptionSegment)
    (maxCount : ℕ) :
    ∃ groups : List (List CaptionSegment), groups.flatten = segs ∧
      (∀ c ∈ groups, c ≠ []) ∧
      mergeSegmentsForOverlay segs maxCount = groups.map combineGroup := by
  unfold mergeSegmentsForOverlay
  by_cases hle : segs.length ≤ maxCount
  · rw [if_pos hle]
    refine ⟨segs.map (fun s => [s]), ?_, ?_, ?_⟩
    · clear hle
      induction segs with
      | nil => rfl
      | cons a t iht => simp [iht]
    · intro c hc
      rw [List.mem_map] at hc
      obtain ⟨x, _, rfl⟩ := hc
      simp
    · rw [List.map_map]
      have : ∀ s ∈ segs, s = (combineGroup ∘ fun s => [s]) s := by
        intro x _
        cases x
        simp [combineGroup]
        rfl
      exact List.map_congr_left (fun a ha => (this a ha).symm) |>.symm ▸ by
        conv_lhs => rw [show segs = segs.map id from (List.map_id segs).symm]
        exact List.map_congr_left (fun a ha => (this a ha))
  · rw [if_neg hle]
    exact ⟨chunkList ((segs.length + maxCount - 1) / maxCount) segs,
      chunkList_join _ segs.length segs (le_refl _),
      chunkList_ne_nil _ segs.length segs (le_refl _), rfl⟩

/-- Encodes attempted by the terminal fallback extend the incoming
attempt list only with the final plain encode. -/
theorem finalStage_attempts (req : Bool) (env : RenderEnv) (k : ℕ)
    (att : List ExecKind) :
    ∀ t ∈ (finalStage req env k att).attempts, t ∈ att ∨ t = ExecKind.finalPlain := by
  unfold finalStage
  split_ifs <;> intro t ht
  · exact Or.inl ht
  · rcases List.mem_append.mp ht with h | h
    · exact Or.inl h
    · exact Or.inr (List.mem_singleton.mp h)
  · rcases List.mem_append.mp ht with h | h
    · exact Or.inl h
    · exact Or.inr (List.mem_singleton.mp h)

/-- Encodes attempted by strategy C extend the incoming attempt list only
with strategy-C and final-plain encodes — never a drawtext strategy. -/
theorem stratCStage_attempts (req : Bool) (env : RenderEnv) (hadAny : Bool)
    (overlays : List OverlayItem) (k : ℕ) (att : List ExecKind) :
    ∀ t ∈ (stratCStage req env hadAny overlays k att).attempts,
      t ∈ att ∨ t = ExecKind.stratCPlain ∨ t = ExecKind.stratCImg ∨
        t = ExecKind.finalPlain := by
  unfold stratCStage
  split_ifs <;> intro t ht
  · rcases List.mem_append.mp ht with h | h
    · exact Or.inl h
    · exact Or.inr (Or.inl (List.mem_singleton.mp h))
  · rcases finalStage_attempts req env (k + 1) (att ++ [.stratCPlain]) t ht with h | h
    · rcases List.mem_append.mp h with h' | h'
      · exact Or.inl h'
      · exact Or.inr (Or.inl (List.mem_singleton.mp h'))
    · exact Or.inr (Or.inr (Or.inr h))
  · rcases finalStage_attempts req env k att t ht with h | h
    · exact Or.inl h
    · exact Or.inr (Or.inr (Or.inr h))
  · rcases List.mem_append.mp ht with h | h
    · exact Or.inl h
    · exact Or.inr (Or.inr (Or.inl (List.mem_singleton.mp h)))
  · rcases finalStage_attempts req env (k + 1) (att ++ [.stratCImg]) t ht with h | h
    · rcases List.mem_append.mp h with h' | h'
      · exact Or.inl h'
      · exact Or.inr (Or.inr (Or.inl (List.mem_singleton.mp h')))
    · exact Or.inr (Or.inr (Or.inr h))

/-- C4: if font staging fails, strategies A and B are never attempted —
the ladder goes directly to strategy C; the overlay list strategy C
composites (hook included) never exceeds the budget of 15; and
`mergeSegmentsForOverlay` merges adjacent segments in order (texts
concatenated, merged windows spanning each group's first start to its
last end) down to at most `maxCount` entries. -/
theorem renderCaptions_fontFail_budget (req : Bool)
    (captions : CaptionRenderInput) (duration : ℚ) (env : RenderEnv)
    (hfont : env.fontLoaded = false) :
    (∀ t ∈ (renderCaptionsWithFallback req captions duration env).attempts,
      t ≠ ExecKind.stratA ∧ t ≠ ExecKind.stratB) ∧
    (overlaysFor captions duration).length ≤ 15 ∧
    (∀ (segs : List CaptionSegment) (maxCount : ℕ), 1 ≤ maxCount →
      (mergeSegmentsForOverlay segs maxCount).length ≤ maxCount ∧
      ∃ groups : List (List CaptionSegment), groups.flatten = segs ∧
        (∀ c ∈ groups, c ≠ []) ∧
        mergeSegmentsForOverlay segs maxCount = groups.map combineGroup) := by
  refine ⟨?_, ?_, ?_⟩
  · intro t ht
    unfold renderCaptionsWithFallback at ht
    rw [hfont] at ht
    simp only [Bool.false_eq_true, if_false] at ht
    rcases stratCStage_attempts req env _ _ 0 [] t ht with h | h | h | h
    · simp at h
    · subst h
      exact ⟨by simp, by simp⟩
    · subst h
      exact ⟨by simp, by simp⟩
    · subst h
      exact ⟨by simp, by simp⟩
  · unfold overlaysFor
    cases hh : (captionInputOf captions duration).hookText with
    | none =>
      simp only
      rw [hh]
      simp only [List.nil_append, List.length_map]
      calc (mergeSegmentsForOverlay (captionInputOf captions duration).segments
            (15 - List.length [])).length ≤ 15 - List.length ([] : List OverlayItem) :=
            mergeSegmentsForOverlay_length _ _ (by simp)
        _ ≤ 15 := by simp
    | some ht =>
      simp only
      rw [hh]
      simp only [List.cons_append, List.nil_append, List.length_cons, List.length_map]
      have := mergeSegmentsForOverlay_length
        (captionInputOf captions duration).segments
        (15 - List.length [(⟨true, 0, min (6/5) duration, ht⟩ : OverlayItem)])
        (by simp)
      simp only [List.length_singleton] at this
      simp only [List.length_nil, Nat.zero_add]
      omega
  · intro segs maxCount hmc
    exact ⟨mergeSegmentsForOverlay_length segs maxCount hmc,
      mergeSegmentsForOverlay_groups segs maxCount⟩

/-- C4 witness: the scenario of the claim — font staging fails, 20
segments against the budget of 15 — instantiated with twenty one-word
segments and a hook. -/
theorem renderCaptions_fontFail_budget_witness :
    ((⟨false, true, fun _ => true⟩ : RenderEnv).fontLoaded = false) ∧
    ((∀ t ∈ (renderCaptionsWithFallback false
        ⟨100, .bottom, "#FFFFFF", none, some "YO",
          (List.range 20).map (fun i => ⟨"w", i, (i : ℚ) + 1/2⟩)⟩ 100
        ⟨false, true, fun _ => true⟩).attempts,
      t ≠ ExecKind.stratA ∧ t ≠ ExecKind.stratB) ∧
    (overlaysFor ⟨100, .bottom, "#FFFFFF", none, some "YO",
        (List.range 20).map (fun i => ⟨"w", i, (i : ℚ) + 1/2⟩)⟩ 100).length ≤ 15 ∧
    (∀ (segs : List CaptionSegment) (maxCount : ℕ), 1 ≤ maxCount →
      (mergeSegmentsForOverlay segs maxCount).length ≤ maxCount ∧
      ∃ groups : List (List CaptionSegment), groups.flatten = segs ∧
        (∀ c ∈ groups, c ≠ []) ∧
        mergeSegmentsForOverlay segs maxCount = groups.map combineGroup)) :=
  ⟨rfl, renderCaptions_fontFail_budget false
    ⟨100, .bottom, "#FFFFFF", none, some "YO",
      (List.range 20).map (fun i => ⟨"w", i, (i : ℚ) + 1/2⟩)⟩ 100
    ⟨false, true, fun _ => true⟩ rfl⟩

/-- A successful terminal fallback reports `no_captions` with no caption
content. -/
theorem finalStage_ok_char (req : Bool) (env : RenderEnv) (k : ℕ)
    (att : List ExecKind) (r : CaptionRenderResult)
    (hok : (finalStage req env k att).result = .ok r) :
    r = ⟨.no_captions, false⟩ ∧ (finalStage req env k att).placed = 0 := by
  unfold finalStage at hok ⊢
  by_cases h1 : req = true
  · rw [if_pos h1] at hok
    simp at hok
  · rw [if_neg h1] at hok ⊢
    by_cases h2 : env.exec k = true
    · rw [if_pos h2] at hok ⊢
      injection hok with h4
      exact ⟨h4.symm, rfl⟩
    · rw [if_neg h2] at hok
      simp at hok

/-- A successful strategy C either placed its overlay list (reporting
`C_overlay_images` with the ladder's `hadAnyCaptions`) or degenerated to
a plain `no_captions` encode with no caption content. -/
theorem stratCStage_ok_char (req : Bool) (env : RenderEnv) (hadAny : Bool)
    (overlays : List OverlayItem) (k : ℕ) (att : List ExecKind)
    (r : CaptionRenderResult)
    (hok : (stratCStage req env hadAny overlays k att).result = .ok r) :
    (r = ⟨.no_captions, false⟩ ∧
      (stratCStage req env hadAny overlays k att).placed = 0) ∨
    (r = ⟨.C_overlay_images, hadAny⟩ ∧
      (stratCStage req env hadAny overlays k att).placed = overlays.length ∧
      overlays ≠ []) := by
  unfold stratCStage at hok ⊢
  split_ifs at hok ⊢ with h1 h2 h3 h4
  · left
    simp only [Except.ok.injEq] at hok
    exact ⟨hok.symm, rfl⟩
  · left
    exact finalStage_ok_char req env (k + 1) (att ++ [.stratCPlain]) r hok
  · left
    exact finalStage_ok_char req env k att r hok
  · right
    simp only [Except.ok.injEq] at hok
    refine ⟨hok.symm, rfl, ?_⟩
    intro he
    rw [he] at h1
    simp at h1
  · left
    exact finalStage_ok_char req env (k + 1) (att ++ [.stratCImg]) r hok

/-- A successful drawtext stage either placed its directive list
(reporting its own strategy with the ladder's `hadAnyCaptions`) or
delegated to the rest of the ladder. -/
theorem drawStage_ok_char (tag : ExecKind) (strat : CaptionStrategy)
    (next : ℕ → List ExecKind → RenderTrace) (req : Bool) (env : RenderEnv)
    (hadAny : Bool) (draw : List DrawtextFilter) (k : ℕ) (att : List ExecKind)
    (r : CaptionRenderResult) (P : ℕ → Prop)
    (hnext : ∀ (k' : ℕ) (att' : List ExecKind),
      (next k' att').result = .ok r → P (next k' att').placed)
    (hok : (drawStage tag strat next req env hadAny draw k att).result = .ok r) :
    (r = ⟨strat, hadAny⟩ ∧
      (drawStage tag strat next req env hadAny draw k att).placed = draw.length) ∨
    P (drawStage tag strat next req env hadAny draw k att).placed := by
  unfold drawStage at hok ⊢
  split_ifs at hok ⊢ with h1 h2
  · exact Or.inr (hnext k att hok)
  · left
    simp only [Except.ok.injEq] at hok
    exact ⟨hok.symm, rfl⟩
  · exact Or.inr (hnext (k + 1) (att ++ [tag]) hok)

/-- A non-empty drawtext directive list requires a (truthy) hook text or
a non-empty segment list in the caption input. -/
theorem buildDrawtextFilters_sources (ci : CaptionRenderInput) (mode : DrawMode)
    (h : buildDrawtextFilters ci mode ≠ []) :
    (∃ t, ci.hookText = some t) ∨ ci.segments ≠ [] := by
  by_contra hcon
  push_neg at hcon
  obtain ⟨hhook, hsegs⟩ := hcon
  have h1 : ci.hookText = none := by
    cases hh : ci.hookText with
    | none => rfl
    | some t => exact absurd rfl (hh ▸ hhook t)
  apply h
  unfold buildDrawtextFilters
  rw [h1, hsegs]
  rfl

/-- A non-empty strategy-C overlay list requires a hook text or a
non-empty normalized segment list in the caption input. -/
theorem overlaysFor_sources (captions : CaptionRenderInput) (duration : ℚ)
    (h : overlaysFor captions duration ≠ []) :
    (∃ t, (captionInputOf captions duration).hookText = some t) ∨
    (captionInputOf captions duration).segments ≠ [] := by
  by_contra hcon
  push_neg at hcon
  obtain ⟨hhook, hsegs⟩ := hcon
  have h1 : (captionInputOf captions duration).hookText = none := by
    cases hh : (captionInputOf captions duration).hookText with
    | none => rfl
    | some t => exact absurd rfl (hh ▸ hhook t)
  apply h
  unfold overlaysFor
  dsimp only
  rw [h1, hsegs]
  rfl

/-- A present hook text in the built caption input means the raw
`hookText` was truthy. -/
theorem captionInputOf_hook_truthy (captions : CaptionRenderInput) (duration : ℚ)
    (t : String) (h : (captionInputOf captions duration).hookText = some t) :
    hookTruthy captions = true := by
  unfold captionInputOf at h
  dsimp only at h
  by_cases hs : stripInvalidChars (captions.hookText.getD "") = ""
  · rw [if_pos hs] at h
    cases h
  · cases hh : captions.hookText with
    | none =>
      rw [hh] at hs
      exact absurd rfl hs
    | some s =>
      unfold hookTruthy
      rw [hh]
      by_cases hse : s = ""
      · rw [hh, hse] at hs
        exact absurd rfl hs
      · simp [hse]

/-- The caption input's segments are the normalized segments. -/
theorem captionInputOf_segments (captions : CaptionRenderInput) (duration : ℚ) :
    (captionInputOf captions duration).segments =
      normalizeCaptionSegments captions.segments duration :=
  rfl

/-- Caption sources (truthy hook or non-empty normalized segments) make
the ladder's `hadAnyCaptions` true. -/
theorem hadAny_of_sources (captions : CaptionRenderInput) (duration : ℚ)
    (h : (∃ t, (captionInputOf captions duration).hookText = some t) ∨
      (captionInputOf captions duration).segments ≠ []) :
    (hookTruthy captions ||
      !(normalizeCaptionSegments captions.segments duration).isEmpty) = true := by
  rcases h with ⟨t, ht⟩ | hs
  · rw [captionInputOf_hook_truthy captions duration t ht]
    rfl
  · rw [captionInputOf_segments] at hs
    have : (normalizeCaptionSegments captions.segments duration).isEmpty = false := by
      rw [List.isEmpty_eq_false]
      exact hs
    rw [this]
    simp

/-- C10 counterexample: with raw `hookText = " "` (truthy in JS but
stripped to nothing) and no segments, strategy A succeeds with an empty
filter list — zero caption elements are placed — yet the result reports
`hadAnyCaptions = true`. -/
theorem renderCaptions_hadAny_miscount :
    (renderCaptionsWithFallback false ⟨5, .bottom, "#FFFFFF", none, some " ", []⟩ 5
      ⟨true, true, fun _ => true⟩).result = .ok ⟨.A_drawtext, true⟩ ∧
    (renderCaptionsWithFallback false ⟨5, .bottom, "#FFFFFF", none, some " ", []⟩ 5
      ⟨true, true, fun _ => true⟩).placed = 0 :=
  ⟨rfl, rfl⟩

/-- C10 (amended): `hadAnyCaptions` reports caption content of the INPUT
(truthy raw hook text or at least one normalized segment), not of the
produced render: a `no_captions` result always reports `false`; any other
successful strategy reports exactly the input condition; and whenever at
least one caption element was actually placed, `hadAnyCaptions` is true.
The converse fails only for hook texts that are truthy but strip to
empty (see the counterexample). -/
theorem renderCaptions_hadAny_spec (req : Bool) (captions : CaptionRenderInput)
    (duration : ℚ) (env : RenderEnv) (r : CaptionRenderResult)
    (hok : (renderCaptionsWithFallback req captions duration env).result = .ok r) :
    (r.usedStrategy = .no_captions → r.hadAnyCaptions = false) ∧
    (r.usedStrategy ≠ .no_captions →
      r.hadAnyCaptions = (hookTruthy captions ||
        !(normalizeCaptionSegments captions.segments duration).isEmpty)) ∧
    (0 < (renderCaptionsWithFallback req captions duration env).placed →
      r.hadAnyCaptions = true) := by
  have hcases :
      (r = ⟨.no_captions, false⟩ ∧
        (renderCaptionsWithFallback req captions duration env).placed = 0) ∨
      ((r.usedStrategy = .A_drawtext ∨ r.usedStrategy = .B_drawtext_safe ∨
          r.usedStrategy = .C_overlay_images) ∧
        r.hadAnyCaptions = (hookTruthy captions ||
          !(normalizeCaptionSegments captions.segments duration).isEmpty) ∧
        (0 < (renderCaptionsWithFallback req captions duration env).placed →
          r.hadAnyCaptions = true)) := by
    unfold renderCaptionsWithFallback at hok ⊢
    by_cases hfont : env.fontLoaded
    · rw [hfont] at hok ⊢
      simp only [if_true] at hok ⊢
      have hC : ∀ (k' : ℕ) (att' : List ExecKind),
          (stratCStage req env
            (hookTruthy captions ||
              !(normalizeCaptionSegments captions.segments duration).isEmpty)
            (overlaysFor captions duration) k' att').result = .ok r →
          (r = ⟨.no_captions, false⟩ ∧
            (stratCStage req env
              (hookTruthy captions ||
                !(normalizeCaptionSegments captions.segments duration).isEmpty)
              (overlaysFor captions duration) k' att').placed = 0) ∨
          ((r.usedStrategy = .A_drawtext ∨ r.usedStrategy = .B_drawtext_safe ∨
              r.usedStrategy = .C_overlay_images) ∧
            r.hadAnyCaptions = (hookTruthy captions ||
              !(normalizeCaptionSegments captions.segments duration).isEmpty) ∧
            (0 < (stratCStage req env
              (hookTruthy captions ||
                !(normalizeCaptionSegments captions.segments duration).isEmpty)
              (overlaysFor captions duration) k' att').placed →
              r.hadAnyCaptions = true)) := by
        intro k' att' hok'
        rcases stratCStage_ok_char req env _ _ k' att' r hok' with ⟨hr, hp⟩ | ⟨hr, hp, hne⟩
        · exact Or.inl ⟨hr, hp⟩
        · right
          subst hr
          refine ⟨Or.inr (Or.inr rfl), rfl, ?_⟩
          intro _
          exact hadAny_of_sources captions duration
            (overlaysFor_sources captions duration hne)
      have hB : ∀ (k' : ℕ) (att' : List ExecKind),
          (drawStage .stratB .B_drawtext_safe
            (stratCStage req env
              (hookTruthy captions ||
                !(normalizeCaptionSegments captions.segments duration).isEmpty)
              (overlaysFor captions duration)) req env
            (hookTruthy captions ||
              !(normalizeCaptionSegments captions.segments duration).isEmpty)
            (buildDrawtextFilters (captionInputOf captions duration) .safe)
            k' att').result = .ok r →
          (r = ⟨.no_captions, false⟩ ∧
            (drawStage .stratB .B_drawtext_safe
              (stratCStage req env
                (hookTruthy captions ||
                  !(normalizeCaptionSegments captions.segments duration).isEmpty)
                (overlaysFor captions duration)) req env
              (hookTruthy captions ||
                !(normalizeCaptionSegments captions.segments duration).isEmpty)
              (buildDrawtextFilters (captionInputOf captions duration) .safe)
              k' att').placed = 0) ∨
          ((r.usedStrategy = .A_drawtext ∨ r.usedStrategy = .B_drawtext_safe ∨
              r.usedStrategy = .C_overlay_images) ∧
            r.hadAnyCaptions = (hookTruthy captions ||
              !(normalizeCaptionSegments captions.segments duration).isEmpty) ∧
            (0 < (drawStage .stratB .B_drawtext_safe
              (stratCStage req env
                (hookTruthy captions ||
                  !(normalizeCaptionSegments captions.segments duration).isEmpty)
                (overlaysFor captions duration)) req env
              (hookTruthy captions ||
                !(normalizeCaptionSegments captions.segments duration).isEmpty)
              (buildDrawtextFilters (captionInputOf captions duration) .safe)
              k' att').placed → r.hadAnyCaptions = true)) := by
        intro k' att' hok'
        have := drawStage_ok_char .stratB .B_drawtext_safe _ req env _ _ k' att' r
          (fun n => (r = ⟨.no_captions, false⟩ ∧ n = 0) ∨
            ((r.usedStrategy = .A_drawtext ∨ r.usedStrategy = .B_drawtext_safe ∨
                r.usedStrategy = .C_overlay_images) ∧
              r.hadAnyCaptions = (hookTruthy captions ||
                !(normalizeCaptionSegments captions.segments duration).isEmpty) ∧
              (0 < n → r.hadAnyCaptions = true)))
          (fun k'' att'' hok'' => hC k'' att'' hok'') hok'
        rcases this with ⟨hr, hp⟩ | hrec
        · right
          subst hr
          refine ⟨Or.inr (Or.inl rfl), rfl, ?_⟩
          intro hpos
          rw [hp] at hpos
          apply hadAny_of_sources captions duration
          apply buildDrawtextFilters_sources (captionInputOf captions duration) .safe
          intro he
          rw [he] at hpos
          simp at hpos
        · exact hrec
      have := drawStage_ok_char .stratA .A_drawtext _ req env _ _ 0 [] r
        (fun n => (r = ⟨.no_captions, false⟩ ∧ n = 0) ∨
          ((r.usedStrategy = .A_drawtext ∨ r.usedStrategy = .B_drawtext_safe ∨
              r.usedStrategy = .C_overlay_images) ∧
            r.hadAnyCaptions = (hookTruthy captions ||
              !(normalizeCaptionSegments captions.segments duration).isEmpty) ∧
            (0 < n → r.hadAnyCaptions = true)))
        (fun k'' att'' hok'' => hB k'' att'' hok'') hok
      rcases this with ⟨hr, hp⟩ | hrec
      · right
        subst hr
        refine ⟨Or.inl rfl, rfl, ?_⟩
        intro hpos
        rw [hp] at hpos
        apply hadAny_of_sources captions duration
        apply buildDrawtextFilters_sources (captionInputOf captions duration) .normal
        intro he
        rw [he] at hpos
        simp at hpos
      · exact hrec
    · rw [Bool.not_eq_true] at hfont
      rw [hfont] at hok ⊢
      simp only [Bool.false_eq_true, if_false] at hok ⊢
      rcases stratCStage_ok_char req env _ _ 0 [] r hok with ⟨hr, hp⟩ | ⟨hr, hp, hne⟩
      · exact Or.inl ⟨hr, hp⟩
      · right
        subst hr
        refine ⟨Or.inr (Or.inr rfl), rfl, ?_⟩
        intro _
        exact hadAny_of_sources captions duration
          (overlaysFor_sources captions duration hne)
  rcases hcases with ⟨hr, hp⟩ | ⟨hstrat, hhad, hplaced⟩
  · subst hr
    refine ⟨fun _ => rfl, fun hne => absurd rfl hne, ?_⟩
    intro hpos
    rw [hp] at hpos
    simp at hpos
  · refine ⟨?_, fun _ => hhad, hplaced⟩
    intro hno
    rcases hstrat with h | h | h <;> rw [hno] at h <;> cases h

/-- C10 witness: the amended theorem instantiated at a run with no
caption input at all — strategy A succeeds with the base filter chain
only, reporting `hadAnyCaptions = false`. -/
theorem renderCaptions_hadAny_spec_witness :
    ((renderCaptionsWithFallback false ⟨10, .bottom, "#FFFFFF", none, none, []⟩ 10
        ⟨true, true, fun _ => true⟩).result = .ok ⟨.A_drawtext, false⟩) ∧
    (((⟨.A_drawtext, false⟩ : CaptionRenderResult).usedStrategy = .no_captions →
        (⟨.A_drawtext, false⟩ : CaptionRenderResult).hadAnyCaptions = false) ∧
      ((⟨.A_drawtext, false⟩ : CaptionRenderResult).usedStrategy ≠ .no_captions →
        (⟨.A_drawtext, false⟩ : CaptionRenderResult).hadAnyCaptions =
          (hookTruthy ⟨10, .bottom, "#FFFFFF", none, none, []⟩ ||
            !(normalizeCaptionSegments
              (⟨10, .bottom, "#FFFFFF", none, none, []⟩ :
                CaptionRenderInput).segments 10).isEmpty)) ∧
      (0 < (renderCaptionsWithFallback false
          ⟨10, .bottom, "#FFFFFF", none, none, []⟩ 10
          ⟨true, true, fun _ => true⟩).placed →
        (⟨.A_drawtext, false⟩ : CaptionRenderResult).hadAnyCaptions = true)) :=
  ⟨rfl, renderCaptions_hadAny_spec false ⟨10, .bottom, "#FFFFFF", none, none, []⟩
    10 ⟨true, true, fun _ => true⟩ ⟨.A_drawtext, false⟩ rfl⟩

/-- C6 witness: source duration 120 s, `duration=30, count=3`, uniform
mode — the windows are exactly `[0,30), [45,75), [90,120)`. -/
theorem calculateClipTimings_uniform_spacing_witness :
    ((0 : ℚ) < 30 ∧ (30 : ℚ) ≤ 120) ∧
    ((2 ≤ 3 →
      calculateClipTimings 0 120 ⟨30, 3, 1, 0, false, ""⟩ [] =
        some ((List.range 3).map (fun (i : ℕ) =>
          ⟨(i : ℚ) * ((120 - 30) / ((3 : ℚ) - 1)),
           (i : ℚ) * ((120 - 30) / ((3 : ℚ) - 1)) + 30, none⟩))) ∧
     ((3 = 1 →
      calculateClipTimings 0 120 ⟨30, 3, 1, 0, false, ""⟩ [] =
        some [⟨0, 30, none⟩]))) ∧
    ((List.range 3).map (fun (i : ℕ) =>
      (⟨(i : ℚ) * ((120 - 30) / ((3 : ℚ) - 1)),
       (i : ℚ) * ((120 - 30) / ((3 : ℚ) - 1)) + 30, none⟩ : ClipTimings)) =
      [⟨0, 30, none⟩, ⟨45, 75, none⟩, ⟨90, 120, none⟩]) := by
  refine ⟨⟨by norm_num, by norm_num⟩, ?_, ?_⟩
  · exact calculateClipTimings_uniform_spacing 0 120 ⟨30, 3, 1, 0, false, ""⟩
      (by norm_num) (by norm_num)
  · norm_num [List.range_succ]

end ClipCreator
